import Mathlib

/-!
# Polled I2C master driver (`firmware/i2c.c`)

A shallow embedding of the master-transmit and master-receive transactions of
`firmware/i2c.c`, together with the accessors of the shared receive buffer.

Modelling conventions.

* `uint8_t` values are natural numbers; every place where the C code can wrap
  (`i++`, `available++`, the address byte) carries an explicit `% 256`.
* The hardware is seen through what the driver observes and does:
  the values returned by successive calls of `I2C_status()` (the *decoded
  statuses*, a list), the values returned by successive reads of
  `LPC_I2C->DAT` (a stream), and an operation log of every register write and
  memory access the call performs, in program order.
* A call of `I2C_status()` made when the list of decoded statuses is exhausted
  never returns (the busy-wait never ends): the transaction is then `blocked`.
* The receive buffer is a heap block: `none` is `NULL`, `some cells` is a
  block of `cells.length` bytes.  A store at an index at or past the end of
  the block does not change the block: the byte lands in the memory that
  follows it, which is recorded apart (`past`), and a later load at that index
  gives the byte back.  A load past the block at an index never stored has no
  defined value (`none`).  The memory past the block is taken to hold nothing
  else the driver uses.
-/

namespace I2C

/-! ## Register bits -/

/-- Bit 2 of the control registers: AA, the ACK-enable bit. -/
def BIT2 : Nat := 4
/-- Bit 3 of the control registers: SI, the transfer-complete flag. -/
def BIT3 : Nat := 8
/-- Bit 4 of the control registers: STO, the STOP request. -/
def BIT4 : Nat := 16
/-- Bit 5 of the control registers: STA, the START request. -/
def BIT5 : Nat := 32

/-! ## Operation log -/

/-- One observable operation of the driver. -/
inductive Op where
  /-- The write `LPC_I2C->CONSET = v`. -/
  | CONSET (v : Nat)
  /-- The write `LPC_I2C->CONCLR = v`. -/
  | CONCLR (v : Nat)
  /-- The write `LPC_I2C->DAT = v`. -/
  | DATw (v : Nat)
  /-- A read of `LPC_I2C->DAT`. -/
  | DATr
  /-- A read of `data[i]`, the caller's transmit array. -/
  | dataRd (i : Nat)
  /-- The store `buffer[i] = v` into the receive buffer. -/
  | bufWr (i v : Nat)
  deriving DecidableEq, Repr

/-- Whether the operation writes a controller register. -/
def Op.isRegWrite : Op → Bool
  | Op.CONSET _ => true
  | Op.CONCLR _ => true
  | Op.DATw _ => true
  | _ => false

/-- Whether the operation requests a STOP condition: a write to `CONSET`
with the STO bit set. -/
def Op.isStop : Op → Bool
  | Op.CONSET v => v &&& BIT4 != 0
  | _ => false

/-- The byte an operation writes to the data register, if it is such a write. -/
def Op.datByte : Op → Option Nat
  | Op.DATw v => some v
  | _ => none

/-- The index an operation stores at in the receive buffer, if it is a store. -/
def Op.storeIdx : Op → Option Nat
  | Op.bufWr i _ => some i
  | _ => none

/-- The bytes written to the data register, in order. -/
def datWrites (log : List Op) : List Nat := log.filterMap Op.datByte

/-- The indices of the stores into the receive buffer, in order. -/
def storeIdxs (log : List Op) : List Nat := log.filterMap Op.storeIdx

/-- The AA (ACK-enable) bit of the controller after the register writes of a
log, starting from the value `aa`. -/
def ackEnable : List Op → Bool → Bool
  | [], aa => aa
  | Op.CONSET v :: l, aa => ackEnable l (if v &&& BIT2 != 0 then true else aa)
  | Op.CONCLR v :: l, aa => ackEnable l (if v &&& BIT2 != 0 then false else aa)
  | _ :: l, aa => ackEnable l aa

/-! ## Driver state -/

/-- The globals of `i2c.c`: `mode`, `available` and `buffer`, and with
`buffer` the memory it points into: the block, and in `past` the bytes that
were stored through `buffer` at indices at or past the end of the block, each
with its index, newest first. -/
structure Driver where
  mode : Nat
  available : Nat
  buffer : Option (List Nat)
  past : List (Nat × Nat)
  deriving DecidableEq, Repr

/-- The globals as initialised at load time: `mode = 0`, `available = 0`,
`buffer = NULL`. -/
def Driver.init : Driver := { mode := 0, available := 0, buffer := none, past := [] }

/-- What the environment supplies to a receive transaction. -/
structure Env where
  /-- The value returned by the `k`-th read of `LPC_I2C->DAT` of a call. -/
  dat : Nat → Nat
  /-- The indeterminate initial content of a freshly allocated block. -/
  garbage : Nat → Nat

/-- The state of a running transaction: the globals, the local index `i` of
`I2C_transmit`, the number of reads of the data register so far, and the
operation log. -/
structure Run where
  drv : Driver
  i : Nat
  reads : Nat
  log : List Op

/-- How a transaction ends on a finite list of decoded statuses: it returns a
code, or it is still waiting in `I2C_status()` when the list is exhausted. -/
inductive Outcome where
  | returned (rc : Nat) (s : Run)
  | blocked (s : Run)

/-- The result of one pass through the body of the `while (true)` loop. -/
inductive Step where
  | ret (rc : Nat) (s : Run)
  | cont (s : Run)

/-- The return code, when the transaction returned. -/
def Outcome.code : Outcome → Option Nat
  | Outcome.returned rc _ => some rc
  | Outcome.blocked _ => none

/-- The state in which the transaction returned or is waiting. -/
def Outcome.run : Outcome → Run
  | Outcome.returned _ s => s
  | Outcome.blocked s => s

/-! ## Bus primitives -/

/-- `I2C_ack`: set the AA bit. -/
def I2C_ack (s : Run) : Run := { s with log := s.log ++ [Op.CONSET BIT2] }

/-- `I2C_nack`: clear the AA bit. -/
def I2C_nack (s : Run) : Run := { s with log := s.log ++ [Op.CONCLR BIT2] }

/-- `I2C_start`: set the STA bit. -/
def I2C_start (s : Run) : Run := { s with log := s.log ++ [Op.CONSET BIT5] }

/-- `I2C_data(uint8_t data)`: load the data byte and set the AA bit. -/
def I2C_data (data : Nat) (s : Run) : Run :=
  { s with log := s.log ++ [Op.DATw data, Op.CONSET BIT2] }

/-- `I2C_data(void)`: read the data register; the result is a `uint8_t`. -/
def I2C_data_read (env : Env) (s : Run) : Nat × Run :=
  (env.dat s.reads % 256, { s with reads := s.reads + 1, log := s.log ++ [Op.DATr] })

/-- `I2C_address`: load SLA+R/W, the address shifted left by one with the
direction bit `mode % 2`, truncated to a `uint8_t`. -/
def I2C_address (address : Nat) (s : Run) : Run :=
  I2C_data (((address <<< 1) ||| (s.drv.mode % 2)) % 256) s

/-- `I2C_stop`: set the STO and AA bits, then clear the SI bit. -/
def I2C_stop (s : Run) : Run :=
  { s with log := s.log ++ [Op.CONSET (BIT4 ||| BIT2), Op.CONCLR BIT3] }

/-- The write `LPC_I2C->CONCLR = v`. -/
def conclr (v : Nat) (s : Run) : Run := { s with log := s.log ++ [Op.CONCLR v] }

/-! ## Transmit transaction -/

/-- The body of the loop of `I2C_transmit` for one decoded status. -/
def transmitStep (address length : Nat) (data : List Nat) (status : Nat) (s : Run) : Step :=
  if status = 0x08 ∨ status = 0x10 then
    Step.cont (conclr BIT3 (conclr BIT5 (I2C_address address s)))
  else if status = 0x18 ∨ status = 0x28 then
    if s.i < length then
      let s1 : Run := { s with i := (s.i + 1) % 256, log := s.log ++ [Op.dataRd s.i] }
      Step.cont (conclr BIT3 (I2C_data (data.getD s.i 0 % 256) s1))
    else
      Step.ret 0x00 (I2C_stop s)
  else if status = 0x20 ∨ status = 0x30 then
    Step.ret 0x00 (I2C_stop s)
  else if status = 0x38 then
    Step.ret status s
  else if status = 0x00 then
    Step.ret status (I2C_stop s)
  else
    Step.cont (conclr BIT3 s)

/-- The `while (true)` loop of `I2C_transmit` over the decoded statuses. -/
def transmitLoop (address length : Nat) (data : List Nat) : List Nat → Run → Outcome
  | [], s => Outcome.blocked s
  | status :: rest, s =>
    match transmitStep address length data status s with
    | Step.ret rc s1 => Outcome.returned rc s1
    | Step.cont s1 => transmitLoop address length data rest s1

/-- `I2C_transmit(address, length, data)` run from the globals `d` on the
given decoded statuses. -/
def I2C_transmit (address length : Nat) (data : List Nat) (statuses : List Nat)
    (d : Driver) : Outcome :=
  transmitLoop address length data statuses
    (I2C_start { drv := { d with mode := 0 }, i := 0, reads := 0, log := [] })

/-! ## Receive transaction -/

/-- `malloc(length)`: a fresh block of `length` bytes of indeterminate
content.  Allocation is taken to succeed. -/
def malloc (env : Env) (length : Nat) : List Nat :=
  (List.range length).map env.garbage

/-- The store `buffer[idx] = v`: into the block when `idx` is inside it, else
into the memory past its end.  A store through `NULL` is left without effect. -/
def bufferStore (d : Driver) (idx v : Nat) : Driver :=
  match d.buffer with
  | none => d
  | some cells =>
    if idx < cells.length then { d with buffer := some (cells.set idx v) }
    else { d with past := (idx, v) :: d.past }

/-- The statement `buffer[available++] = I2C_data();`. -/
def storeByte (env : Env) (s : Run) : Run :=
  let r := I2C_data_read env s
  let idx := r.2.drv.available
  { r.2 with
    drv := { bufferStore r.2.drv idx r.1 with available := (idx + 1) % 256 },
    log := r.2.log ++ [Op.bufWr idx r.1] }

/-- The body of the loop of `I2C_request` for one decoded status. -/
def requestStep (env : Env) (address length : Nat) (status : Nat) (s : Run) : Step :=
  if status = 0x08 ∨ status = 0x10 then
    Step.cont (conclr BIT3 (I2C_address address s))
  else if status = 0x38 then
    Step.ret status s
  else if status = 0x40 ∨ status = 0x48 then
    Step.cont (conclr BIT3 (I2C_ack s))
  else if status = 0x48 then
    Step.ret 0x00 (I2C_stop s)
  else if status = 0x50 then
    let s1 := storeByte env s
    if s1.drv.available < length then
      Step.cont (conclr BIT3 (I2C_ack s1))
    else
      Step.cont (conclr BIT3 (I2C_nack s1))
  else if status = 0x58 then
    Step.ret 0x00 (I2C_stop (storeByte env s))
  else if status = 0x00 then
    Step.ret status (I2C_stop s)
  else
    Step.cont (conclr BIT3 s)

/-- The `while (true)` loop of `I2C_request` over the decoded statuses. -/
def requestLoop (env : Env) (address length : Nat) : List Nat → Run → Outcome
  | [], s => Outcome.blocked s
  | status :: rest, s =>
    match requestStep env address length status s with
    | Step.ret rc s1 => Outcome.returned rc s1
    | Step.cont s1 => requestLoop env address length rest s1

/-- The state in which `I2C_request` enters its loop: `mode = 1`, the old
buffer released (`free` leaves no trace in the globals), `available = 0`, a
fresh buffer of `length` bytes with nothing stored past its end yet, START
requested. -/
def requestEntry (env : Env) (length : Nat) (d : Driver) : Run :=
  let d1 : Driver := { d with mode := 1 }
  let d2 : Driver := { d1 with available := 0 }
  let d3 : Driver := { d2 with buffer := some (malloc env length), past := [] }
  I2C_start { drv := d3, i := 0, reads := 0, log := [] }

/-- `I2C_request(address, length)` run from the globals `d` on the given
decoded statuses. -/
def I2C_request (env : Env) (address length : Nat) (statuses : List Nat)
    (d : Driver) : Outcome :=
  requestLoop env address length statuses (requestEntry env length d)

/-! ## Receive transaction against a simulated controller -/

/-- The status a simulated controller reports for the `k`-th call of
`I2C_status()` of a receive transaction: start sent, then address+R
acknowledged, then for each received data byte `0x50` when the AA bit is set
at that moment and `0x58` when it is cleared. -/
def simStatus (k : Nat) (s : Run) : Nat :=
  if k = 0 then 0x08
  else if k = 1 then 0x40
  else if ackEnable s.log false then 0x50 else 0x58

/-- The loop of `I2C_request` driven by the simulated controller, for at most
`fuel` passes; `k` counts the statuses decoded so far. -/
def simRequestLoop (env : Env) (address length : Nat) : Nat → Nat → Run → Outcome
  | 0, _, s => Outcome.blocked s
  | fuel + 1, k, s =>
    match requestStep env address length (simStatus k s) s with
    | Step.ret rc s1 => Outcome.returned rc s1
    | Step.cont s1 => simRequestLoop env address length fuel (k + 1) s1

/-- `I2C_request(address, length)` against the simulated controller. -/
def simRequest (env : Env) (address length fuel : Nat) (d : Driver) : Outcome :=
  simRequestLoop env address length fuel 0 (requestEntry env length d)

/-! ## Status decoder -/

/-- `I2C_wait`: read `LPC_I2C->CONSET` until the SI bit is set.  The argument
is the values of the successive reads; the result is the reads left over, or
`none` when the flag is never seen set (the busy-wait never ends). -/
def I2C_wait : List Nat → Option (List Nat)
  | [] => none
  | c :: rest => if c &&& BIT3 ≠ 0 then some rest else I2C_wait rest

/-- `I2C_status`: read `LPC_I2C->STAT`, masked with `0xF8` into a `uint8_t`,
until the value is not `0xF8`; then `I2C_wait()`; then return the value.  The
arguments are the values of the successive reads of `STAT` and of `CONSET`;
the result is the status with the reads left over, or `none` when the call
never returns. -/
def I2C_status : List Nat → List Nat → Option (Nat × List Nat × List Nat)
  | [], _ => none
  | v :: rest, conset =>
    let status := (v &&& 0xF8) % 256
    if status = 0xF8 then I2C_status rest conset
    else
      match I2C_wait conset with
      | none => none
      | some crest => some (status, rest, crest)

/-! ## Accessors -/

/-- `I2C_available`: the fill cursor. -/
def I2C_available (d : Driver) : Nat := d.available

/-- The load `buffer[index]`: the cell of the block when `index` is inside it,
else the byte last stored at that index past the block; `none` when the
buffer is `NULL` or nothing was stored there. -/
def bufferLoad (d : Driver) (index : Nat) : Option Nat :=
  match d.buffer with
  | none => none
  | some cells => if index < cells.length then cells[index]? else d.past.lookup index

/-- `I2C_read(index)`: `buffer[index]` when `available && index < available`,
else `0`. -/
def I2C_read (d : Driver) (index : Nat) : Option Nat :=
  if d.available ≠ 0 ∧ index < d.available then bufferLoad d index else some 0

/-! ## Auxiliary notions for the statements -/

/-- The receive buffer of a run is a block of `L` bytes whose first `a` cells
hold the first `a` bytes read from the data register, `a` being the cursor. -/
def Filled (env : Env) (L a : Nat) (s : Run) : Prop :=
  s.drv.available = a ∧ s.reads = a ∧
    ∃ cells, s.drv.buffer = some cells ∧ cells.length = L ∧
      ∀ j, j < a → cells[j]? = some (env.dat j % 256)

/-- No operation of the log requests a STOP. -/
def NoStop (log : List Op) : Prop := ∀ op ∈ log, op.isStop = false

/-- Two runs that cannot be told apart through the accessors: same globals
`mode` and `available`, same index, reads and log, buffers that are not
`NULL`, and below the cursor every load through `buffer` gives a byte, the same
in both, whether the index is inside the block or past its end. -/
def Agree (s t : Run) : Prop :=
  s.drv.mode = t.drv.mode ∧ s.drv.available = t.drv.available ∧ s.i = t.i ∧
    s.reads = t.reads ∧ s.log = t.log ∧ s.drv.buffer ≠ none ∧ t.drv.buffer ≠ none ∧
    ∀ j, j < s.drv.available →
      ∃ v, bufferLoad s.drv j = some v ∧ bufferLoad t.drv j = some v

/-- Two loop passes end the same way in runs that agree. -/
def StepAgree : Step → Step → Prop
  | Step.ret rc s, Step.ret rc2 t => rc = rc2 ∧ Agree s t
  | Step.cont s, Step.cont t => Agree s t
  | _, _ => False

/-- Two transactions end the same way in runs that agree. -/
def OutcomeAgree : Outcome → Outcome → Prop
  | Outcome.returned rc s, Outcome.returned rc2 t => rc = rc2 ∧ Agree s t
  | Outcome.blocked s, Outcome.blocked t => Agree s t
  | _, _ => False

/-- The first store of the log, if there is one, is at index `0`; with no
store yet, the cursor is `0`. -/
def FirstStoreZero (s : Run) : Prop :=
  (storeIdxs s.log = [] ∧ s.drv.available = 0) ∨ (storeIdxs s.log).head? = some 0

/-- The state a loop pass ends in. -/
def Step.run : Step → Run
  | Step.ret _ s => s
  | Step.cont s => s

/-- The index of the caller's array an operation reads, if it is such a read. -/
def Op.dataIdx : Op → Option Nat
  | Op.dataRd i => some i
  | _ => none

/-- The indices of `data[]` read, in order. -/
def dataReads (log : List Op) : List Nat := log.filterMap Op.dataIdx

/-- The statuses `0x18` (SLA+W acknowledged) and `0x28` (data byte
acknowledged). -/
def isAcked (x : Nat) : Bool := x == 0x18 || x == 0x28

/-- The statuses `0x50` and `0x58` (data byte received). -/
def isDataReceived (x : Nat) : Bool := x == 0x50 || x == 0x58

/-- The statuses `0x08` (START sent) and `0x10` (repeated START sent). -/
def isStart (x : Nat) : Bool := x == 0x08 || x == 0x10

/-- `Interleave xs ys zs`: the list `zs` is a merge of `xs` and `ys`: every
element of `zs` comes from exactly one of them, and the elements of each
appear in `zs` in their order. -/
inductive Interleave : List Nat → List Nat → List Nat → Prop where
  | nil : Interleave [] [] []
  | left (a : Nat) {xs ys zs : List Nat} :
      Interleave xs ys zs → Interleave (a :: xs) ys (a :: zs)
  | right (b : Nat) {xs ys zs : List Nat} :
      Interleave xs ys zs → Interleave xs (b :: ys) (b :: zs)

/-- The statuses on which `I2C_transmit` returns whatever its state:
`0x20`, `0x30`, `0x38`, `0x00`. -/
def isTransmitFinal (x : Nat) : Bool := x == 0x20 || x == 0x30 || x == 0x38 || x == 0x00

/-- The statuses `I2C_transmit` decodes on the given list of statuses: all of
them when it never returns, else those up to the one on which it returns. -/
def transmitDecoded (address length : Nat) (data : List Nat) : List Nat → Run → List Nat
  | [], _ => []
  | x :: rest, s =>
    match transmitStep address length data x s with
    | Step.ret _ _ => [x]
    | Step.cont s1 => x :: transmitDecoded address length data rest s1

/-- The statuses `I2C_request` decodes on the given list of statuses: all of
them when it never returns, else those up to the one on which it returns. -/
def requestDecoded (env : Env) (address length : Nat) : List Nat → Run → List Nat
  | [], _ => []
  | x :: rest, s =>
    match requestStep env address length x s with
    | Step.ret _ _ => [x]
    | Step.cont s1 => x :: requestDecoded env address length rest s1

/-- The state in which `I2C_transmit` enters its loop: `mode = 0`, `i = 0`,
START requested. -/
def transmitEntry (d : Driver) : Run :=
  I2C_start { drv := { d with mode := 0 }, i := 0, reads := 0, log := [] }

/-- The scenario of the specification: the data register delivers `0x11`,
`0x22`, `0x33`, `0x44` and zero afterwards; fresh memory holds `0xAA`. -/
def scenarioEnv : Env :=
  { dat := fun k => [0x11, 0x22, 0x33, 0x44].getD k 0, garbage := fun _ => 0xAA }

/-! # Theorems -/

/-! ## Stores and loads through `buffer` -/

theorem bufferStore_mode (d : Driver) (idx v : Nat) : (bufferStore d idx v).mode = d.mode := by
  unfold bufferStore
  split
  · rfl
  · split_ifs <;> rfl

theorem bufferStore_available (d : Driver) (idx v : Nat) :
    (bufferStore d idx v).available = d.available := by
  unfold bufferStore
  split
  · rfl
  · split_ifs <;> rfl

theorem bufferStore_inside (d : Driver) (idx v : Nat) (cells : List Nat)
    (hb : d.buffer = some cells) (hi : idx < cells.length) :
    bufferStore d idx v = { d with buffer := some (cells.set idx v) } := by
  unfold bufferStore
  simp only [hb, hi, if_true]

theorem bufferStore_size (d : Driver) (idx v : Nat) :
    (bufferStore d idx v).buffer.map List.length = d.buffer.map List.length := by
  unfold bufferStore
  split
  · rfl
  · next cells hb =>
    split_ifs
    · simp [hb]
    · simp [hb]

theorem bufferStore_buffer_ne (d : Driver) (idx v : Nat) (hb : d.buffer ≠ none) :
    (bufferStore d idx v).buffer ≠ none := by
  intro h
  have hs := bufferStore_size d idx v
  rw [h] at hs
  cases hd : d.buffer with
  | none => exact hb hd
  | some cells => simp [hd] at hs

/-- A load after a store through a non-`NULL` buffer gives the stored byte at
the index of the store, inside the block or past it, and what was there
before at every other index. -/
theorem bufferLoad_bufferStore (d : Driver) (idx v j : Nat) (hb : d.buffer ≠ none) :
    bufferLoad (bufferStore d idx v) j = if j = idx then some v else bufferLoad d j := by
  cases hbuf : d.buffer with
  | none => exact absurd hbuf hb
  | some cells =>
    unfold bufferStore bufferLoad
    simp only [hbuf]
    by_cases hin : idx < cells.length
    · simp only [hin, if_true, List.length_set]
      by_cases hj : j = idx
      · subst hj
        simp [hin]
      · simp only [hj, if_false]
        split_ifs
        · exact List.getElem?_set_ne (Ne.symm hj)
        · rfl
    · simp only [hin, if_false]
      by_cases hj : j = idx
      · subst hj
        simp [hin, List.lookup]
      · simp only [hj, if_false]
        split_ifs
        · rfl
        · have hne : (j == idx) = false := by simpa using hj
          simp [List.lookup, hne]

theorem storeByte_mode (env : Env) (s : Run) : (storeByte env s).drv.mode = s.drv.mode :=
  bufferStore_mode s.drv _ _

theorem storeByte_buffer_ne (env : Env) (s : Run) (hb : s.drv.buffer ≠ none) :
    (storeByte env s).drv.buffer ≠ none :=
  bufferStore_buffer_ne s.drv _ _ hb

theorem storeByte_load (env : Env) (s : Run) (j : Nat) (hb : s.drv.buffer ≠ none) :
    bufferLoad (storeByte env s).drv j
      = if j = s.drv.available then some (env.dat s.reads % 256) else bufferLoad s.drv j :=
  bufferLoad_bufferStore s.drv _ _ j hb

/-! ## The receive loop on an all-acknowledged transfer -/

theorem filled_entry (env : Env) (L : Nat) (d : Driver) :
    Filled env L 0 (requestEntry env L d) := by
  refine ⟨rfl, rfl, malloc env L, rfl, ?_, ?_⟩
  · simp [malloc]
  · intro j hj
    exact absurd hj (Nat.not_lt_zero j)

theorem filled_storeByte (env : Env) (L a : Nat) (s : Run) (h : Filled env L a s)
    (ha : a < L) (hL : L ≤ 255) : Filled env L (a + 1) (storeByte env s) := by
  obtain ⟨hav, hrd, cells, hbuf, hlen, hcells⟩ := h
  refine ⟨?_, ?_, cells.set a (env.dat a % 256), ?_, ?_, ?_⟩
  · simp only [storeByte, I2C_data_read, hav]
    omega
  · simp [storeByte, I2C_data_read, hrd]
  · have hin : s.drv.available < cells.length := by omega
    show (bufferStore s.drv s.drv.available (env.dat s.reads % 256)).buffer = _
    rw [bufferStore_inside s.drv _ _ cells hbuf hin, hav, hrd]
  · simp [hlen]
  · intro j hj
    by_cases hja : j = a
    · subst hja
      simp [hlen, ha]
    · have hlt : j < a := by omega
      rw [List.getElem?_set_ne (Ne.symm hja)]
      exact hcells j hlt

theorem filled_of_drv (env : Env) (L a : Nat) (s t : Run) (h : Filled env L a s)
    (hd : t.drv = s.drv) (hr : t.reads = s.reads) : Filled env L a t := by
  unfold Filled at *
  rw [hd, hr]
  exact h

theorem requestLoop_acks (env : Env) (address L : Nat) (hL : L ≤ 255) (rest : List Nat) :
    ∀ (k a : Nat) (s : Run), Filled env L a s → a + k < L →
      ∃ t, requestLoop env address L (List.replicate k 0x50 ++ rest) s
          = requestLoop env address L rest t ∧ Filled env L (a + k) t := by
  intro k
  induction k with
  | zero =>
    intro a s h _
    exact ⟨s, by simp, by simpa using h⟩
  | succ k ih =>
    intro a s h hak
    have h1 : Filled env L (a + 1) (storeByte env s) :=
      filled_storeByte env L a s h (by omega) hL
    have hav : (storeByte env s).drv.available < L := by
      rw [h1.1]
      omega
    have h2 : Filled env L (a + 1) (conclr BIT3 (I2C_ack (storeByte env s))) :=
      filled_of_drv env L (a + 1) _ _ h1 rfl rfl
    obtain ⟨t, ht, hfill⟩ := ih (a + 1) _ h2 (by omega)
    refine ⟨t, ?_, ?_⟩
    · rw [← ht]
      simp [List.replicate_succ, requestLoop, requestStep, hav]
    · have : a + (k + 1) = a + 1 + k := by omega
      rw [this]
      exact hfill

/-! ## Claims on the receive transaction -/

/-- C1: for every length `L` with `1 ≤ L ≤ 255` and every sequence `b` of `L`
bytes delivered in order by the data register, `I2C_request(address, L)` fed
the decoded statuses `0x08`, `0x40`, then `0x50` repeated `L - 1` times, then
`0x58` returns `0x00` and leaves `I2C_available() = L`, `I2C_read(i) = b[i]`
for every `i < L`, and `I2C_read(L) = 0`. -/
theorem request_all_acked (env : Env) (address L : Nat) (b : List Nat) (d : Driver)
    (hL1 : 1 ≤ L) (hL : L ≤ 255) (hb : b.length = L) (hbyte : ∀ x ∈ b, x < 256)
    (hdat : ∀ i, i < L → env.dat i = b.getD i 0) :
    ∃ s, I2C_request env address L
          (0x08 :: 0x40 :: (List.replicate (L - 1) 0x50 ++ [0x58])) d
        = Outcome.returned 0x00 s ∧
      I2C_available s.drv = L ∧
      (∀ i, i < L → I2C_read s.drv i = some (b.getD i 0)) ∧
      I2C_read s.drv L = some 0 := by
  have h0 : Filled env L 0
      (conclr BIT3 (I2C_ack (conclr BIT3 (I2C_address address (requestEntry env L d))))) :=
    filled_of_drv env L 0 _ _ (filled_entry env L d) rfl rfl
  obtain ⟨t, ht, hfill⟩ := requestLoop_acks env address L hL [0x58] (L - 1) 0 _ h0 (by omega)
  have hlast : Filled env L (0 + (L - 1) + 1) (I2C_stop (storeByte env t)) :=
    filled_of_drv env L _ _ _ (filled_storeByte env L _ t hfill (by omega) hL) rfl rfl
  have hcur : 0 + (L - 1) + 1 = L := by omega
  rw [hcur] at hlast
  obtain ⟨hav, _, cells, hbuf, hlen, hcells⟩ := hlast
  refine ⟨I2C_stop (storeByte env t), ?_, hav, ?_, ?_⟩
  · simp only [I2C_request, requestLoop, requestStep]
    simp only [Nat.reduceEqDiff, or_false, or_true, true_or, if_true, if_false]
    rw [ht]
    simp [requestLoop, requestStep]
  · intro i hi
    have hlt : b.getD i 0 < 256 := by
      have hib : i < b.length := by omega
      rw [List.getD_eq_getElem b 0 hib]
      exact hbyte _ (List.getElem_mem hib)
    have hne : L ≠ 0 := by omega
    simp only [I2C_read, bufferLoad, hav, hbuf, hlen, hi, hne, ne_eq, not_false_eq_true,
      and_self, if_true]
    rw [hcells i hi, hdat i hi, Nat.mod_eq_of_lt hlt]
  · simp [I2C_read, hav]

/-- Witness of C1: address `0x50`, `L = 3`, bytes `0x11, 0x22, 0x33` with data
statuses `0x50, 0x50, 0x58`. -/
theorem request_all_acked_witness :
    ∃ s, I2C_request scenarioEnv 0x50 3 [0x08, 0x40, 0x50, 0x50, 0x58] Driver.init
        = Outcome.returned 0x00 s ∧
      I2C_available s.drv = 3 ∧
      (∀ i, i < 3 → I2C_read s.drv i = some ([0x11, 0x22, 0x33].getD i 0)) ∧
      I2C_read s.drv 3 = some 0 :=
  request_all_acked scenarioEnv 0x50 3 [0x11, 0x22, 0x33] Driver.init
    (by decide) (by decide) rfl (by decide)
    (by intro i hi; interval_cases i <;> rfl)

/-! ## The receive loop against the simulated controller -/

theorem ackEnable_append (l m : List Op) :
    ∀ aa : Bool, ackEnable (l ++ m) aa = ackEnable m (ackEnable l aa) := by
  induction l with
  | nil =>
    intro aa
    rfl
  | cons op l ih =>
    intro aa
    cases op <;> simp only [List.cons_append, ackEnable] <;> exact ih _

theorem storeByte_available (env : Env) (s : Run) :
    (storeByte env s).drv.available = (s.drv.available + 1) % 256 := rfl

theorem storeByte_log (env : Env) (s : Run) :
    (storeByte env s).log
      = s.log ++ [Op.DATr, Op.bufWr s.drv.available (env.dat s.reads % 256)] := by
  simp [storeByte, I2C_data_read]

theorem simStatus_data (n : Nat) (s : Run) (hn : 2 ≤ n) :
    simStatus n s = if ackEnable s.log false then 0x50 else 0x58 := by
  have h0 : n ≠ 0 := by omega
  have h1 : n ≠ 1 := by omega
  simp [simStatus, h0, h1]

/-- Against the simulated controller, once the address is acknowledged the
receive loop stores one byte more than `L`: with the cursor at `a < L` and ACK
enabled, it returns `0x00` with the cursor at `L + 1`. -/
theorem simRequestLoop_data (env : Env) (address L : Nat) (hL : L ≤ 254) :
    ∀ (m a fuel n : Nat) (s : Run), L = a + m + 1 → s.drv.available = a →
      ackEnable s.log false = true → 2 ≤ n → m + 2 ≤ fuel →
      ∃ t, simRequestLoop env address L fuel n s = Outcome.returned 0x00 t ∧
        t.drv.available = L + 1 := by
  intro m
  induction m with
  | zero =>
    intro a fuel n s hLa hav hack hn hfuel
    obtain ⟨f, rfl⟩ : ∃ f, fuel = f + 1 + 1 := ⟨fuel - 2, by omega⟩
    have hav1 : (storeByte env s).drv.available = L := by
      rw [storeByte_available, hav]
      omega
    have hnlt : ¬ (storeByte env s).drv.available < L := by omega
    have hack2 : ackEnable (conclr BIT3 (I2C_nack (storeByte env s))).log false = false := by
      simp only [conclr, I2C_nack, storeByte_log, List.append_assoc, ackEnable_append]
      rfl
    refine ⟨I2C_stop (storeByte env (conclr BIT3 (I2C_nack (storeByte env s)))), ?_, ?_⟩
    · simp only [simRequestLoop, simStatus_data n s hn, hack, if_true]
      simp only [requestStep, hnlt, if_false]
      simp only [Nat.reduceEqDiff, or_self, if_false, if_true]
      rw [simStatus_data (n + 1) _ (by omega), hack2]
      simp [requestStep]
    · show (storeByte env (conclr BIT3 (I2C_nack (storeByte env s)))).drv.available = L + 1
      rw [storeByte_available]
      show ((storeByte env s).drv.available + 1) % 256 = L + 1
      rw [hav1]
      omega
  | succ m ih =>
    intro a fuel n s hLa hav hack hn hfuel
    obtain ⟨f, rfl⟩ : ∃ f, fuel = f + 1 := ⟨fuel - 1, by omega⟩
    have hav1 : (storeByte env s).drv.available = a + 1 := by
      rw [storeByte_available, hav]
      omega
    have hlt : (storeByte env s).drv.available < L := by omega
    have hack2 : ackEnable (conclr BIT3 (I2C_ack (storeByte env s))).log false = true := by
      simp only [conclr, I2C_ack, storeByte_log, List.append_assoc, ackEnable_append]
      rfl
    obtain ⟨t, ht, htav⟩ := ih (a + 1) f (n + 1) (conclr BIT3 (I2C_ack (storeByte env s)))
      (by omega) hav1 hack2 (by omega) (by omega)
    refine ⟨t, ?_, htav⟩
    rw [← ht]
    simp only [simRequestLoop, simStatus_data n s hn, hack, if_true]
    simp only [requestStep, hlt, if_true]
    simp only [Nat.reduceEqDiff, or_self, if_false, if_true]

/-- Against the simulated controller, `I2C_request(address, L)` with
`1 ≤ L ≤ 254` returns `0x00` with the cursor at `L + 1`. -/
theorem simRequest_cursor (env : Env) (address L fuel : Nat) (d : Driver)
    (hL1 : 1 ≤ L) (hL : L ≤ 254) (hfuel : L + 3 ≤ fuel) :
    ∃ t, simRequest env address L fuel d = Outcome.returned 0x00 t ∧
      I2C_available t.drv = L + 1 := by
  obtain ⟨f, rfl⟩ : ∃ f, fuel = f + 1 + 1 := ⟨fuel - 2, by omega⟩
  have hack : ackEnable (conclr BIT3 (I2C_ack (conclr BIT3 (I2C_address address
      (requestEntry env L d))))).log false = true := by
    simp only [conclr, I2C_ack, I2C_address, I2C_data, requestEntry, I2C_start,
      List.append_assoc, ackEnable_append]
    rfl
  obtain ⟨t, ht, htav⟩ := simRequestLoop_data env address L hL (L - 1) 0 f 2 _
    (by omega) rfl hack (by omega) (by omega)
  refine ⟨t, ?_, htav⟩
  rw [← ht]
  simp [simRequest, simRequestLoop, simStatus, requestStep]

/-- C2: against the simulated controller, `I2C_request(0x50, 3)` does return
`0x00`, but only after a fourth data byte: the driver still enables ACK after
the second byte and disables it only after the third, so the controller
reports `0x50` three times and then `0x58`; the cursor ends at `4`, not `3`,
and the fourth store is at index `3` of a 3-byte block, so the fourth byte
lands past its end. -/
theorem simRequest_receives_one_more (fuel : Nat) :
    (simRequest scenarioEnv 0x50 3 (fuel + 6) Driver.init).code = some 0x00 ∧
      I2C_available (simRequest scenarioEnv 0x50 3 (fuel + 6) Driver.init).run.drv = 4 ∧
      (simRequest scenarioEnv 0x50 3 (fuel + 6) Driver.init).run.drv.buffer
        = some [0x11, 0x22, 0x33] ∧
      storeIdxs (simRequest scenarioEnv 0x50 3 (fuel + 6) Driver.init).run.log
        = [0, 1, 2, 3] ∧
      (simRequest scenarioEnv 0x50 3 (fuel + 6) Driver.init).run.drv.past = [(3, 0x44)] := by
  refine ⟨rfl, rfl, rfl, rfl, rfl⟩

/-- C3: `I2C_request(address, 1)` on the decoded statuses `0x08`, `0x40`,
`0x50`, `0x58` (the statuses the controller reports for the ACK the driver
sets on `0x40` and the NACK it sets after the first byte) returns with the
cursor at `2` while the buffer was allocated with `1` byte. -/
theorem request_cursor_exceeds_length (env : Env) (address : Nat) (d : Driver) :
    (I2C_request env address 1 [0x08, 0x40, 0x50, 0x58] d).code = some 0x00 ∧
      (I2C_request env address 1 [0x08, 0x40, 0x50, 0x58] d).run.drv.buffer.map List.length
        = some 1 ∧
      I2C_available (I2C_request env address 1 [0x08, 0x40, 0x50, 0x58] d).run.drv = 2 := by
  exact ⟨rfl, rfl, rfl⟩

/-- C4: on the address+R-nacked status `0x48` the loop of `I2C_request` takes
the branch of `0x40`: it sets AA, clears SI and goes on waiting; it neither
requests STOP nor returns.  So `I2C_request` fed `0x08`, `0x48` is still waiting
for a status, with no STOP in its log. -/
theorem request_addr_nack_continues (env : Env) (address length : Nat) (s : Run)
    (d : Driver) :
    requestStep env address length 0x48 s = Step.cont (conclr BIT3 (I2C_ack s)) ∧
      (I2C_request env address length [0x08, 0x48] d).code = none ∧
      ∀ op ∈ (I2C_request env address length [0x08, 0x48] d).run.log, op.isStop = false := by
  refine ⟨rfl, rfl, ?_⟩
  intro op hop
  simp [I2C_request, requestLoop, requestStep, requestEntry, I2C_ack, conclr, I2C_address,
    I2C_data, I2C_start, Outcome.run] at hop
  rcases hop with h | h | h | h | h | h <;> subst h <;> rfl

/-- C9: after `I2C_request(address, 1)` on the decoded statuses `0x08`, `0x40`,
`0x50`, `0x58`, the cursor is `2` over a block of `1` byte, so `I2C_read(1)`
passes the guard `index < available` and loads `buffer[1]`, past the end of
the block: it returns the second byte received, which the loop stored
there. -/
theorem read_outside_block (env : Env) (address : Nat) (d : Driver) :
    1 < I2C_available (I2C_request env address 1 [0x08, 0x40, 0x50, 0x58] d).run.drv ∧
      (I2C_request env address 1 [0x08, 0x40, 0x50, 0x58] d).run.drv.buffer.map List.length
        = some 1 ∧
      (I2C_request env address 1 [0x08, 0x40, 0x50, 0x58] d).run.drv.past
        = [(1, env.dat 1 % 256)] ∧
      I2C_read (I2C_request env address 1 [0x08, 0x40, 0x50, 0x58] d).run.drv 1
        = some (env.dat 1 % 256) := by
  have hav : (I2C_request env address 1 [0x08, 0x40, 0x50, 0x58] d).run.drv.available = 2 :=
    rfl
  exact ⟨by simp [I2C_available, hav], rfl, rfl, rfl⟩

/-! ## Claims on the transmit transaction -/

theorem transmitLoop_acks (address L : Nat) (data : List Nat) (hL : L ≤ 255)
    (hd : data.length = L) :
    ∀ (acks : List Nat), (∀ x ∈ acks, x = 0x18 ∨ x = 0x28) →
      ∀ s : Run, s.i ≤ L → s.i + acks.length = L + 1 →
        ∃ t mid, transmitLoop address L data acks s = Outcome.returned 0x00 t ∧
          t.log = s.log ++ mid ++ [Op.CONSET (BIT4 ||| BIT2), Op.CONCLR BIT3] ∧
          datWrites mid = (data.drop s.i).map (· % 256) ∧
          (∀ op ∈ mid, op.isStop = false) ∧ t.drv = s.drv := by
  intro acks
  induction acks with
  | nil =>
    intro _ s hi hlen
    simp at hlen
    omega
  | cons x rest ih =>
    intro hx s hi hlen
    have hx0 : x = 0x18 ∨ x = 0x28 := hx x (List.mem_cons_self x rest)
    have hne : ¬ (x = 0x08 ∨ x = 0x10) := by
      rcases hx0 with h | h <;> subst h <;> decide
    by_cases hlt : s.i < L
    · obtain ⟨t, mid, hrun, hlog, hdat, hstop, hdrv⟩ :=
        ih (fun y hy => hx y (List.mem_cons_of_mem x hy))
          (conclr BIT3 (I2C_data (data.getD s.i 0 % 256)
            { s with i := (s.i + 1) % 256, log := s.log ++ [Op.dataRd s.i] }))
          (by simp only [conclr, I2C_data]; omega)
          (by simp only [conclr, I2C_data, List.length_cons] at hlen ⊢; omega)
      refine ⟨t, [Op.dataRd s.i, Op.DATw (data.getD s.i 0 % 256), Op.CONSET BIT2,
        Op.CONCLR BIT3] ++ mid, ?_, ?_, ?_, ?_, ?_⟩
      · simp only [transmitLoop, transmitStep, hne, hx0, hlt, if_true, if_false]
        exact hrun
      · rw [hlog]
        simp [conclr, I2C_data]
      · have hmod : (s.i + 1) % 256 = s.i + 1 := Nat.mod_eq_of_lt (by omega)
        have hdl : s.i < data.length := by omega
        simp only [conclr, I2C_data, hmod] at hdat
        rw [List.drop_eq_getElem_cons hdl, List.map_cons, ← hdat,
          List.getD_eq_getElem data 0 hdl]
        simp [datWrites, Op.datByte]
      · intro op hop
        simp only [List.mem_append, List.mem_cons, List.mem_singleton, List.not_mem_nil,
          or_false] at hop
        rcases hop with (h | h | h | h) | h
        · subst h; rfl
        · subst h; rfl
        · subst h; rfl
        · subst h; rfl
        · exact hstop op h
      · rw [hdrv]
        rfl
    · have hrest : rest = [] := by
        simp only [List.length_cons] at hlen
        exact List.length_eq_zero.mp (by omega)
      subst hrest
      refine ⟨I2C_stop s, [], ?_, ?_, ?_, ?_, rfl⟩
      · simp only [transmitLoop, transmitStep, hne, hx0, hlt, if_true, if_false]
      · simp [I2C_stop]
      · have : data.drop s.i = [] := List.drop_eq_nil_of_le (by omega)
        simp [this, datWrites]
      · intro op hop
        simp at hop

/-- C5: for every length `L ≤ 255` and every array `data` of `L` bytes,
`I2C_transmit(address, L, data)` fed `0x08`, `0x18`, then `0x28` repeated `L`
times returns `0x00`; its log ends with the STOP request (`CONSET` of STO and
AA, then `CONCLR` of SI), nothing before that requests STOP, and the bytes
written to the data register before it are the address byte followed by
`data[0], ..., data[L-1]` in order. -/
theorem transmit_all_acked (address L : Nat) (data : List Nat) (d : Driver)
    (hL : L ≤ 255) (hd : data.length = L) (hbyte : ∀ x ∈ data, x < 256) :
    ∃ s pre, I2C_transmit address L data (0x08 :: 0x18 :: List.replicate L 0x28) d
        = Outcome.returned 0x00 s ∧
      s.log = pre ++ [Op.CONSET (BIT4 ||| BIT2), Op.CONCLR BIT3] ∧
      datWrites pre = (2 * address % 256) :: data ∧
      ∀ op ∈ pre, op.isStop = false := by
  obtain ⟨t, mid, hrun, hlog, hdat, hstop, _⟩ :=
    transmitLoop_acks address L data hL hd (0x18 :: List.replicate L 0x28)
      (by
        intro x hx
        rcases List.mem_cons.mp hx with h | h
        · exact Or.inl h
        · exact Or.inr (List.eq_of_mem_replicate h))
      (conclr BIT3 (conclr BIT5 (I2C_address address
        (I2C_start { drv := { d with mode := 0 }, i := 0, reads := 0, log := [] }))))
      (Nat.zero_le L) (by simp [conclr, I2C_address, I2C_data, I2C_start])
  refine ⟨t, [Op.CONSET BIT5, Op.DATw (2 * address % 256), Op.CONSET BIT2, Op.CONCLR BIT5,
    Op.CONCLR BIT3] ++ mid, ?_, ?_, ?_, ?_⟩
  · rw [← hrun]
    simp [I2C_transmit, transmitLoop, transmitStep]
  · rw [hlog]
    simp [conclr, I2C_address, I2C_data, I2C_start, Nat.shiftLeft_eq, Nat.mul_comm]
  · have hmap : data.map (· % 256) = data := by
      conv_rhs => rw [← List.map_id data]
      exact List.map_congr_left (fun x hx => Nat.mod_eq_of_lt (hbyte x hx))
    have hmid : datWrites mid = data := by
      rw [hdat]
      simpa [conclr, I2C_address, I2C_data, I2C_start] using hmap
    simp only [datWrites] at hmid ⊢
    rw [List.filterMap_append, hmid]
    rfl
  · intro op hop
    simp only [List.mem_append, List.mem_cons, List.mem_singleton, List.not_mem_nil,
      or_false] at hop
    rcases hop with (h | h | h | h | h) | h
    · subst h; rfl
    · subst h; rfl
    · subst h; rfl
    · subst h; rfl
    · subst h; rfl
    · exact hstop op h

/-- Witness of C5: two bytes `7, 9` sent to address `0x50`. -/
theorem transmit_all_acked_witness :
    ∃ s pre, I2C_transmit 0x50 2 [7, 9] [0x08, 0x18, 0x28, 0x28] Driver.init
        = Outcome.returned 0x00 s ∧
      s.log = pre ++ [Op.CONSET (BIT4 ||| BIT2), Op.CONCLR BIT3] ∧
      datWrites pre = (2 * 0x50 % 256) :: [7, 9] ∧
      ∀ op ∈ pre, op.isStop = false :=
  transmit_all_acked 0x50 2 [7, 9] Driver.init (by decide) rfl (by decide)

/-- C6: for every address, length and data, `I2C_transmit` fed `0x08` then
`0x20` returns `0x00`; its log is the START request, the load of the address
byte, the clearing of STA and SI, and the STOP request, so the only byte
written to the data register is the address byte and no `data[i]` is read. -/
theorem transmit_addr_nacked (address length : Nat) (data : List Nat) (d : Driver) :
    ∃ s, I2C_transmit address length data [0x08, 0x20] d = Outcome.returned 0x00 s ∧
      s.log = [Op.CONSET BIT5, Op.DATw (2 * address % 256), Op.CONSET BIT2, Op.CONCLR BIT5,
        Op.CONCLR BIT3, Op.CONSET (BIT4 ||| BIT2), Op.CONCLR BIT3] ∧
      datWrites s.log = [2 * address % 256] ∧
      ∀ i, Op.dataRd i ∉ s.log := by
  have hlog : (I2C_stop (conclr BIT3 (conclr BIT5 (I2C_address address
      (I2C_start { drv := { d with mode := 0 }, i := 0, reads := 0, log := [] }))))).log
      = [Op.CONSET BIT5, Op.DATw (2 * address % 256), Op.CONSET BIT2, Op.CONCLR BIT5,
        Op.CONCLR BIT3, Op.CONSET (BIT4 ||| BIT2), Op.CONCLR BIT3] := by
    simp [I2C_stop, conclr, I2C_address, I2C_data, I2C_start, Nat.shiftLeft_eq, Nat.mul_comm]
  refine ⟨_, ?_, hlog, ?_, ?_⟩
  · simp [I2C_transmit, transmitLoop, transmitStep]
  · rw [hlog]
    rfl
  · intro i
    rw [hlog]
    simp

/-! ## Arbitration loss -/

theorem transmitLoop_append (address length : Nat) (data : List Nat) (rest : List Nat) :
    ∀ (pre : List Nat) (s t : Run),
      transmitLoop address length data pre s = Outcome.blocked t →
      transmitLoop address length data (pre ++ rest) s
        = transmitLoop address length data rest t := by
  intro pre
  induction pre with
  | nil =>
    intro s t h
    simp only [transmitLoop, Outcome.blocked.injEq] at h
    simp [h]
  | cons x pre ih =>
    intro s t h
    simp only [transmitLoop, List.cons_append] at h ⊢
    cases hstep : transmitStep address length data x s with
    | ret rc s1 => simp [hstep] at h
    | cont s1 =>
      simp only [hstep] at h ⊢
      exact ih s1 t h

theorem requestLoop_append (env : Env) (address length : Nat) (rest : List Nat) :
    ∀ (pre : List Nat) (s t : Run),
      requestLoop env address length pre s = Outcome.blocked t →
      requestLoop env address length (pre ++ rest) s
        = requestLoop env address length rest t := by
  intro pre
  induction pre with
  | nil =>
    intro s t h
    simp only [requestLoop, Outcome.blocked.injEq] at h
    simp [h]
  | cons x pre ih =>
    intro s t h
    simp only [requestLoop, List.cons_append] at h ⊢
    cases hstep : requestStep env address length x s with
    | ret rc s1 => simp [hstep] at h
    | cont s1 =>
      simp only [hstep] at h ⊢
      exact ih s1 t h

theorem noStop_append (l m : List Op) (hl : NoStop l) (hm : NoStop m) : NoStop (l ++ m) := by
  intro op hop
  rcases List.mem_append.mp hop with h | h
  · exact hl op h
  · exact hm op h

theorem transmitStep_noStop (address length : Nat) (data : List Nat) (x : Nat) (s t : Run)
    (h : transmitStep address length data x s = Step.cont t) (hs : NoStop s.log) :
    NoStop t.log := by
  unfold transmitStep at h
  dsimp only at h
  split_ifs at h <;> simp only [Step.cont.injEq] at h <;> subst h <;>
    simp only [conclr, I2C_address, I2C_data, List.append_assoc] <;>
    refine noStop_append _ _ hs ?_ <;>
    simp [NoStop, Op.isStop, BIT2, BIT3, BIT4, BIT5] <;> rfl

theorem requestStep_noStop (env : Env) (address length : Nat) (x : Nat) (s t : Run)
    (h : requestStep env address length x s = Step.cont t) (hs : NoStop s.log) :
    NoStop t.log := by
  unfold requestStep at h
  dsimp only at h
  split_ifs at h <;> simp only [Step.cont.injEq] at h <;> subst h <;>
    simp only [conclr, I2C_address, I2C_data, I2C_ack, I2C_nack, storeByte, I2C_data_read,
      List.append_assoc] <;>
    refine noStop_append _ _ hs ?_ <;>
    simp [NoStop, Op.isStop, BIT2, BIT3, BIT4, BIT5] <;> rfl

theorem transmitLoop_noStop (address length : Nat) (data : List Nat) :
    ∀ (pre : List Nat) (s t : Run),
      transmitLoop address length data pre s = Outcome.blocked t → NoStop s.log →
      NoStop t.log := by
  intro pre
  induction pre with
  | nil =>
    intro s t h hs
    simp only [transmitLoop, Outcome.blocked.injEq] at h
    rw [← h]
    exact hs
  | cons x pre ih =>
    intro s t h hs
    simp only [transmitLoop] at h
    cases hstep : transmitStep address length data x s with
    | ret rc s1 => simp [hstep] at h
    | cont s1 =>
      simp only [hstep] at h
      exact ih s1 t h (transmitStep_noStop address length data x s s1 hstep hs)

theorem requestLoop_noStop (env : Env) (address length : Nat) :
    ∀ (pre : List Nat) (s t : Run),
      requestLoop env address length pre s = Outcome.blocked t → NoStop s.log →
      NoStop t.log := by
  intro pre
  induction pre with
  | nil =>
    intro s t h hs
    simp only [requestLoop, Outcome.blocked.injEq] at h
    rw [← h]
    exact hs
  | cons x pre ih =>
    intro s t h hs
    simp only [requestLoop] at h
    cases hstep : requestStep env address length x s with
    | ret rc s1 => simp [hstep] at h
    | cont s1 =>
      simp only [hstep] at h
      exact ih s1 t h (requestStep_noStop env address length x s s1 hstep hs)

theorem noStop_start (s : Run) (h : s.log = []) : NoStop (I2C_start s).log := by
  intro op hop
  simp only [I2C_start, h, List.nil_append, List.mem_singleton] at hop
  subst hop
  rfl

/-- C7: in `I2C_transmit` and in `I2C_request`, after any decoded statuses on
which the call has not returned (it is waiting in state `t`, resp. `u`), a
next decoded status `0x38` makes the call return exactly `0x38` in that same
state, so with no operation after the status is decoded, whatever statuses
would follow; and the log of the whole call contains no STOP request. -/
theorem arbitration_lost_returns (env : Env) (address length : Nat) (data : List Nat)
    (d : Driver) (preT restT preR restR : List Nat) (t u : Run)
    (ht : I2C_transmit address length data preT d = Outcome.blocked t)
    (hu : I2C_request env address length preR d = Outcome.blocked u) :
    (I2C_transmit address length data (preT ++ 0x38 :: restT) d = Outcome.returned 0x38 t ∧
        NoStop t.log) ∧
      (I2C_request env address length (preR ++ 0x38 :: restR) d = Outcome.returned 0x38 u ∧
        NoStop u.log) := by
  refine ⟨⟨?_, ?_⟩, ?_, ?_⟩
  · unfold I2C_transmit at ht ⊢
    rw [transmitLoop_append address length data (0x38 :: restT) preT _ t ht]
    simp [transmitLoop, transmitStep]
  · exact transmitLoop_noStop address length data preT _ t ht (noStop_start _ rfl)
  · unfold I2C_request at hu ⊢
    rw [requestLoop_append env address length (0x38 :: restR) preR _ u hu]
    simp [requestLoop, requestStep]
  · exact requestLoop_noStop env address length preR _ u hu (noStop_start _ rfl)

/-- Witness of C7: arbitration is lost after the first data byte of a
transmission of one byte, and after the first received byte of a request. -/
theorem arbitration_lost_returns_witness :
    (I2C_transmit 0x50 1 [7] ([0x08, 0x18] ++ 0x38 :: [0x28]) Driver.init
        = Outcome.returned 0x38 (I2C_transmit 0x50 1 [7] [0x08, 0x18] Driver.init).run ∧
      NoStop (I2C_transmit 0x50 1 [7] [0x08, 0x18] Driver.init).run.log) ∧
    (I2C_request scenarioEnv 0x50 1 ([0x08, 0x40, 0x50] ++ 0x38 :: [0x50]) Driver.init
        = Outcome.returned 0x38
          (I2C_request scenarioEnv 0x50 1 [0x08, 0x40, 0x50] Driver.init).run ∧
      NoStop (I2C_request scenarioEnv 0x50 1 [0x08, 0x40, 0x50] Driver.init).run.log) :=
  arbitration_lost_returns scenarioEnv 0x50 1 [7] Driver.init [0x08, 0x18] [0x28]
    [0x08, 0x40, 0x50] [0x50]
    (I2C_transmit 0x50 1 [7] [0x08, 0x18] Driver.init).run
    (I2C_request scenarioEnv 0x50 1 [0x08, 0x40, 0x50] Driver.init).run rfl rfl

/-! ## Accessors -/

/-- C8: in every state of the driver, `I2C_read(i)` returns `0` for every index
`i` with `i ≥ I2C_available()`. -/
theorem read_beyond_cursor (d : Driver) (i : Nat) (h : I2C_available d ≤ i) :
    I2C_read d i = some 0 := by
  unfold I2C_available at h
  have hn : ¬ (d.available ≠ 0 ∧ i < d.available) := fun hc => absurd hc.2 (Nat.not_lt.mpr h)
  simp only [I2C_read, hn, if_false]

/-- Witness of C8: index `3` after a request that received three bytes. -/
theorem read_beyond_cursor_witness :
    I2C_available
        (I2C_request scenarioEnv 0x50 3 [0x08, 0x40, 0x50, 0x50, 0x58] Driver.init).run.drv ≤ 3 ∧
      I2C_read
        (I2C_request scenarioEnv 0x50 3 [0x08, 0x40, 0x50, 0x50, 0x58] Driver.init).run.drv 3
        = some 0 :=
  ⟨by decide, read_beyond_cursor _ 3 (by decide)⟩

/-! ## Independence of a request from the earlier state -/

theorem agree_log (s t u v : Run) (m : List Op) (h : Agree s t)
    (hu : u = { s with log := s.log ++ m }) (hv : v = { t with log := t.log ++ m }) :
    Agree u v := by
  obtain ⟨hm, ha, hi, hr, hl, hb⟩ := h
  subst hu hv
  exact ⟨hm, ha, hi, hr, by simp [hl], hb⟩

theorem agree_address (address : Nat) (s t : Run) (h : Agree s t) :
    Agree (I2C_address address s) (I2C_address address t) := by
  refine agree_log s t _ _
    [Op.DATw (((address <<< 1) ||| (s.drv.mode % 2)) % 256), Op.CONSET BIT2] h rfl ?_
  simp only [I2C_address, I2C_data, h.1]

theorem agree_storeByte (dat g1 g2 : Nat → Nat) (s t : Run) (h : Agree s t) :
    Agree (storeByte (Env.mk dat g1) s) (storeByte (Env.mk dat g2) t) := by
  obtain ⟨hm, ha, hi, hr, hl, hbs, hbt, hload⟩ := h
  refine ⟨?_, ?_, hi, ?_, ?_, storeByte_buffer_ne _ s hbs, storeByte_buffer_ne _ t hbt, ?_⟩
  · rw [storeByte_mode, storeByte_mode]
    exact hm
  · simp [storeByte, I2C_data_read, ha]
  · simp [storeByte, I2C_data_read, hr]
  · simp [storeByte, I2C_data_read, hr, hl, ha]
  · intro j hj
    rw [storeByte_load _ s j hbs, storeByte_load _ t j hbt, ← ha, ← hr]
    by_cases hja : j = s.drv.available
    · exact ⟨dat s.reads % 256, by simp [hja], by simp [hja]⟩
    · have hlt : j < s.drv.available := by
        rw [storeByte_available] at hj
        have := Nat.mod_le (s.drv.available + 1) 256
        omega
      obtain ⟨v, hv1, hv2⟩ := hload j hlt
      exact ⟨v, by simp [hja, hv1], by simp [hja, hv2]⟩

theorem requestStep_agree (dat g1 g2 : Nat → Nat) (address length x : Nat) (s t : Run)
    (h : Agree s t) :
    StepAgree (requestStep (Env.mk dat g1) address length x s)
      (requestStep (Env.mk dat g2) address length x t) := by
  have hst := agree_storeByte dat g1 g2 s t h
  have hav : (storeByte (Env.mk dat g1) s).drv.available
      = (storeByte (Env.mk dat g2) t).drv.available := hst.2.1
  unfold requestStep
  dsimp only
  rw [hav]
  split_ifs
  · exact agree_log _ _ _ _ [Op.CONCLR BIT3] (agree_address address s t h) rfl rfl
  · exact ⟨rfl, h⟩
  · exact agree_log _ _ _ _ [Op.CONCLR BIT3]
      (agree_log s t _ _ [Op.CONSET BIT2] h rfl rfl) rfl rfl
  · exact ⟨rfl, agree_log s t _ _ [Op.CONSET (BIT4 ||| BIT2), Op.CONCLR BIT3] h rfl rfl⟩
  · exact agree_log _ _ _ _ [Op.CONCLR BIT3]
      (agree_log _ _ _ _ [Op.CONSET BIT2] hst rfl rfl) rfl rfl
  · exact agree_log _ _ _ _ [Op.CONCLR BIT3]
      (agree_log _ _ _ _ [Op.CONCLR BIT2] hst rfl rfl) rfl rfl
  · exact ⟨rfl, agree_log _ _ _ _ [Op.CONSET (BIT4 ||| BIT2), Op.CONCLR BIT3] hst rfl rfl⟩
  · exact ⟨rfl, agree_log s t _ _ [Op.CONSET (BIT4 ||| BIT2), Op.CONCLR BIT3] h rfl rfl⟩
  · exact agree_log s t _ _ [Op.CONCLR BIT3] h rfl rfl

theorem requestLoop_agree (dat g1 g2 : Nat → Nat) (address length : Nat) :
    ∀ (statuses : List Nat) (s t : Run), Agree s t →
      OutcomeAgree (requestLoop (Env.mk dat g1) address length statuses s)
        (requestLoop (Env.mk dat g2) address length statuses t) := by
  intro statuses
  induction statuses with
  | nil =>
    intro s t h
    exact h
  | cons x rest ih =>
    intro s t h
    have hstep := requestStep_agree dat g1 g2 address length x s t h
    simp only [requestLoop]
    cases h1 : requestStep (Env.mk dat g1) address length x s with
    | ret rc s1 =>
      cases h2 : requestStep (Env.mk dat g2) address length x t with
      | ret rc2 t1 =>
        rw [h1, h2] at hstep
        exact hstep
      | cont t1 =>
        rw [h1, h2] at hstep
        exact hstep.elim
    | cont s1 =>
      cases h2 : requestStep (Env.mk dat g2) address length x t with
      | ret rc2 t1 =>
        rw [h1, h2] at hstep
        exact hstep.elim
      | cont t1 =>
        rw [h1, h2] at hstep
        exact ih s1 t1 hstep

theorem requestEntry_agree (dat g1 g2 : Nat → Nat) (length : Nat) (d1 d2 : Driver) :
    Agree (requestEntry (Env.mk dat g1) length d1) (requestEntry (Env.mk dat g2) length d2) := by
  refine ⟨rfl, rfl, rfl, rfl, rfl, ?_, ?_, ?_⟩
  · simp [requestEntry, I2C_start]
  · simp [requestEntry, I2C_start]
  · intro j hj
    exact absurd hj (Nat.not_lt_zero j)

theorem agree_read (s t : Run) (h : Agree s t) (i : Nat) :
    ∃ v, I2C_read s.drv i = some v ∧ I2C_read t.drv i = some v := by
  obtain ⟨_, ha, _, _, _, _, _, hload⟩ := h
  unfold I2C_read
  rw [← ha]
  split_ifs with hc
  · exact hload i hc.2
  · exact ⟨0, rfl, rfl⟩

theorem agree_outcome (o p : Outcome) (h : OutcomeAgree o p) :
    o.code = p.code ∧ Agree o.run p.run := by
  cases o with
  | returned rc s =>
    cases p with
    | returned rc2 t => exact ⟨congrArg some h.1, h.2⟩
    | blocked t => exact h.elim
  | blocked s =>
    cases p with
    | returned rc2 t => exact h.elim
    | blocked t => exact ⟨rfl, h⟩

theorem storeIdxs_append (l m : List Op) : storeIdxs (l ++ m) = storeIdxs l ++ storeIdxs m := by
  simp [storeIdxs]

theorem firstStoreZero_log (s u : Run) (m : List Op) (h : FirstStoreZero s)
    (hm : storeIdxs m = []) (hu : u = { s with log := s.log ++ m }) : FirstStoreZero u := by
  subst hu
  unfold FirstStoreZero at *
  simp only [storeIdxs_append, hm, List.append_nil]
  exact h

theorem firstStoreZero_storeByte (env : Env) (s : Run) (h : FirstStoreZero s) :
    FirstStoreZero (storeByte env s) := by
  right
  have hlog : (storeByte env s).log
      = s.log ++ [Op.DATr, Op.bufWr s.drv.available (env.dat s.reads % 256)] := by
    simp [storeByte, I2C_data_read]
  rw [hlog, storeIdxs_append]
  rcases h with ⟨hnil, hav⟩ | hhead
  · rw [hnil, hav]
    rfl
  · cases hl : storeIdxs s.log with
    | nil => simp [hl] at hhead
    | cons y ys =>
      rw [hl] at hhead
      simpa using hhead

theorem requestStep_firstStoreZero (env : Env) (address length x : Nat) (s : Run)
    (h : FirstStoreZero s) :
    (∀ rc t, requestStep env address length x s = Step.ret rc t → FirstStoreZero t) ∧
      (∀ t, requestStep env address length x s = Step.cont t → FirstStoreZero t) := by
  have hst := firstStoreZero_storeByte env s h
  unfold requestStep
  dsimp only
  refine ⟨?_, ?_⟩
  · intro rc t ht
    split_ifs at ht <;> simp only [Step.ret.injEq] at ht <;> obtain ⟨_, ht⟩ := ht <;>
      subst ht
    · exact h
    · exact firstStoreZero_log s _ [Op.CONSET (BIT4 ||| BIT2), Op.CONCLR BIT3] h rfl rfl
    · exact firstStoreZero_log _ _ [Op.CONSET (BIT4 ||| BIT2), Op.CONCLR BIT3] hst rfl rfl
    · exact firstStoreZero_log s _ [Op.CONSET (BIT4 ||| BIT2), Op.CONCLR BIT3] h rfl rfl
  · intro t ht
    split_ifs at ht <;> simp only [Step.cont.injEq] at ht <;> subst ht
    · exact firstStoreZero_log _ _ [Op.CONCLR BIT3]
        (firstStoreZero_log s _ [Op.DATw (((address <<< 1) ||| (s.drv.mode % 2)) % 256),
          Op.CONSET BIT2] h rfl rfl) rfl rfl
    · exact firstStoreZero_log _ _ [Op.CONCLR BIT3]
        (firstStoreZero_log s _ [Op.CONSET BIT2] h rfl rfl) rfl rfl
    · exact firstStoreZero_log _ _ [Op.CONCLR BIT3]
        (firstStoreZero_log _ _ [Op.CONSET BIT2] hst rfl rfl) rfl rfl
    · exact firstStoreZero_log _ _ [Op.CONCLR BIT3]
        (firstStoreZero_log _ _ [Op.CONCLR BIT2] hst rfl rfl) rfl rfl
    · exact firstStoreZero_log s _ [Op.CONCLR BIT3] h rfl rfl

theorem requestLoop_firstStoreZero (env : Env) (address length : Nat) :
    ∀ (statuses : List Nat) (s : Run), FirstStoreZero s →
      FirstStoreZero (requestLoop env address length statuses s).run := by
  intro statuses
  induction statuses with
  | nil =>
    intro s h
    exact h
  | cons x rest ih =>
    intro s h
    have hstep := requestStep_firstStoreZero env address length x s h
    simp only [requestLoop]
    cases h1 : requestStep env address length x s with
    | ret rc s1 => exact hstep.1 rc s1 h1
    | cont s1 => exact ih s1 (hstep.2 s1 h1)

/-- C10: `I2C_request` does not depend on the state an earlier transaction
left.  From any two driver states `d1`, `d2`, and whatever the content of the
freshly allocated block is, the same address, length, decoded statuses and
data-register reads give the same return code (or the same absence of return),
the same operation log, the same `I2C_available()` and, for every `i`, the
same `I2C_read(i)`: a byte in both runs, the same one, also where the index is
at or past the end of the block and the load gives back what the loop stored
there; and the first store into the buffer, if any, is at index `0`. -/
theorem request_independent_of_past (dat g1 g2 : Nat → Nat) (address length : Nat)
    (statuses : List Nat) (d1 d2 : Driver) :
    (I2C_request (Env.mk dat g1) address length statuses d1).code
        = (I2C_request (Env.mk dat g2) address length statuses d2).code ∧
      (I2C_request (Env.mk dat g1) address length statuses d1).run.log
        = (I2C_request (Env.mk dat g2) address length statuses d2).run.log ∧
      I2C_available (I2C_request (Env.mk dat g1) address length statuses d1).run.drv
        = I2C_available (I2C_request (Env.mk dat g2) address length statuses d2).run.drv ∧
      (∀ i, ∃ v,
        I2C_read (I2C_request (Env.mk dat g1) address length statuses d1).run.drv i = some v ∧
        I2C_read (I2C_request (Env.mk dat g2) address length statuses d2).run.drv i = some v) ∧
      ∀ idx, (storeIdxs (I2C_request (Env.mk dat g1) address length statuses d1).run.log).head?
        = some idx → idx = 0 := by
  have hagree := agree_outcome _ _
    (requestLoop_agree dat g1 g2 address length statuses _ _
      (requestEntry_agree dat g1 g2 length d1 d2))
  have hfirst := requestLoop_firstStoreZero (Env.mk dat g1) address length statuses
    (requestEntry (Env.mk dat g1) length d1) (Or.inl ⟨rfl, rfl⟩)
  refine ⟨hagree.1, hagree.2.2.2.2.2.1, hagree.2.2.1, agree_read _ _ hagree.2, ?_⟩
  intro idx hidx
  rcases hfirst with ⟨hnil, _⟩ | hhead
  · unfold I2C_request at hidx
    rw [hnil] at hidx
    simp at hidx
  · unfold I2C_request at hidx
    rw [hhead] at hidx
    exact (Option.some.inj hidx).symm

/-! ## What the loops leave unchanged -/

theorem transmitStep_drv (address length : Nat) (data : List Nat) (x : Nat) (s : Run) :
    (transmitStep address length data x s).run.drv = s.drv := by
  unfold transmitStep
  dsimp only
  split_ifs <;> rfl

theorem transmitLoop_drv (address length : Nat) (data : List Nat) :
    ∀ (statuses : List Nat) (s : Run),
      (transmitLoop address length data statuses s).run.drv = s.drv := by
  intro statuses
  induction statuses with
  | nil =>
    intro s
    rfl
  | cons x rest ih =>
    intro s
    have hstep := transmitStep_drv address length data x s
    simp only [transmitLoop]
    cases h1 : transmitStep address length data x s with
    | ret rc s1 =>
      rw [h1] at hstep
      exact hstep
    | cont s1 =>
      rw [h1] at hstep
      simp only []
      rw [ih s1]
      exact hstep

theorem requestStep_mode (env : Env) (address length x : Nat) (s : Run) :
    (requestStep env address length x s).run.drv.mode = s.drv.mode := by
  unfold requestStep
  dsimp only
  split_ifs <;> first | rfl | exact storeByte_mode env s

theorem requestLoop_mode (env : Env) (address length : Nat) :
    ∀ (statuses : List Nat) (s : Run),
      (requestLoop env address length statuses s).run.drv.mode = s.drv.mode := by
  intro statuses
  induction statuses with
  | nil =>
    intro s
    rfl
  | cons x rest ih =>
    intro s
    have hstep := requestStep_mode env address length x s
    simp only [requestLoop]
    cases h1 : requestStep env address length x s with
    | ret rc s1 =>
      rw [h1] at hstep
      exact hstep
    | cont s1 =>
      rw [h1] at hstep
      simp only []
      rw [ih s1]
      exact hstep

/-! ## Bus error -/

/-- C11: in `I2C_transmit` and in `I2C_request`, after any decoded statuses on
which the call has not returned (it is waiting in state `t`, resp. `u`), a
next decoded status `0x00` makes the call request STOP (a `CONSET` write with
the STO bit, then a `CONCLR` write of SI, and nothing else) and return `0x00`.
That is the value of a successful completion: in `I2C_transmit` the pass on
a data-byte-acked status with no byte left ends exactly like the pass on
`0x00`, and in `I2C_request` the pass on `0x58` returns `0x00` too. -/
theorem bus_error_stops (env : Env) (address length : Nat) (data : List Nat)
    (d : Driver) (preT restT preR restR : List Nat) (t u : Run)
    (ht : I2C_transmit address length data preT d = Outcome.blocked t)
    (hu : I2C_request env address length preR d = Outcome.blocked u) :
    I2C_transmit address length data (preT ++ 0x00 :: restT) d
        = Outcome.returned 0x00
          { t with log := t.log ++ [Op.CONSET (BIT4 ||| BIT2), Op.CONCLR BIT3] } ∧
      I2C_request env address length (preR ++ 0x00 :: restR) d
        = Outcome.returned 0x00
          { u with log := u.log ++ [Op.CONSET (BIT4 ||| BIT2), Op.CONCLR BIT3] } ∧
      (Op.CONSET (BIT4 ||| BIT2)).isStop = true ∧
      (∀ s : Run, ¬ s.i < length →
        transmitStep address length data 0x28 s = transmitStep address length data 0x00 s) ∧
      ∀ s : Run, requestStep env address length 0x58 s
        = Step.ret 0x00 (I2C_stop (storeByte env s)) := by
  refine ⟨?_, ?_, rfl, ?_, ?_⟩
  · unfold I2C_transmit at ht ⊢
    rw [transmitLoop_append address length data (0x00 :: restT) preT _ t ht]
    simp [transmitLoop, transmitStep, I2C_stop]
  · unfold I2C_request at hu ⊢
    rw [requestLoop_append env address length (0x00 :: restR) preR _ u hu]
    simp [requestLoop, requestStep, I2C_stop]
  · intro s hs
    simp [transmitStep, hs]
  · intro s
    rfl

/-- Witness of C11: a bus error after the first data byte of a transmission
of one byte, and after the first received byte of a request. -/
theorem bus_error_stops_witness :
    I2C_transmit 0x50 1 [7] ([0x08, 0x18] ++ 0x00 :: [0x28]) Driver.init
        = Outcome.returned 0x00
          { (I2C_transmit 0x50 1 [7] [0x08, 0x18] Driver.init).run with
            log := (I2C_transmit 0x50 1 [7] [0x08, 0x18] Driver.init).run.log
              ++ [Op.CONSET (BIT4 ||| BIT2), Op.CONCLR BIT3] } ∧
      I2C_request scenarioEnv 0x50 1 ([0x08, 0x40, 0x50] ++ 0x00 :: [0x50]) Driver.init
        = Outcome.returned 0x00
          { (I2C_request scenarioEnv 0x50 1 [0x08, 0x40, 0x50] Driver.init).run with
            log := (I2C_request scenarioEnv 0x50 1 [0x08, 0x40, 0x50] Driver.init).run.log
              ++ [Op.CONSET (BIT4 ||| BIT2), Op.CONCLR BIT3] } ∧
      (Op.CONSET (BIT4 ||| BIT2)).isStop = true ∧
      (∀ s : Run, ¬ s.i < 1 →
        transmitStep 0x50 1 [7] 0x28 s = transmitStep 0x50 1 [7] 0x00 s) ∧
      ∀ s : Run, requestStep scenarioEnv 0x50 1 0x58 s
        = Step.ret 0x00 (I2C_stop (storeByte scenarioEnv s)) :=
  bus_error_stops scenarioEnv 0x50 1 [7] Driver.init [0x08, 0x18] [0x28]
    [0x08, 0x40, 0x50] [0x50]
    (I2C_transmit 0x50 1 [7] [0x08, 0x18] Driver.init).run
    (I2C_request scenarioEnv 0x50 1 [0x08, 0x40, 0x50] Driver.init).run rfl rfl

/-! ## Address byte -/

theorem addressByte_write (a : Nat) (ha : a < 128) : ((a <<< 1) ||| (0 % 2)) % 256 = 2 * a := by
  interval_cases a <;> rfl

theorem addressByte_read (a : Nat) (ha : a < 128) :
    ((a <<< 1) ||| (1 % 2)) % 256 = 2 * a + 1 := by
  interval_cases a <;> rfl

theorem addressByte_xor (a : Nat) (ha : a < 128) : (2 * a) ^^^ (2 * a + 1) = 1 := by
  interval_cases a <;> rfl

/-- C12: for every 7-bit address `a`, on a start-sent (`0x08`) or
repeated-start-sent (`0x10`) status, at any point of the transaction where the
call is waiting, `I2C_transmit` loads `2 * a` into the data register (then sets
AA and clears STA and SI) and `I2C_request` loads `2 * a + 1` (then sets AA and
clears SI); the two bytes differ in bit 0 only. -/
theorem address_byte_direction (env : Env) (a length : Nat) (data : List Nat) (d : Driver)
    (preT preR : List Nat) (t u : Run) (x : Nat) (ha : a < 128)
    (hx : x = 0x08 ∨ x = 0x10)
    (ht : I2C_transmit a length data preT d = Outcome.blocked t)
    (hu : I2C_request env a length preR d = Outcome.blocked u) :
    transmitStep a length data x t
        = Step.cont { t with log := t.log ++ [Op.DATw (2 * a), Op.CONSET BIT2,
            Op.CONCLR BIT5, Op.CONCLR BIT3] } ∧
      requestStep env a length x u
        = Step.cont { u with log := u.log ++ [Op.DATw (2 * a + 1), Op.CONSET BIT2,
            Op.CONCLR BIT3] } ∧
      (2 * a) ^^^ (2 * a + 1) = 1 := by
  have hmt : t.drv.mode = 0 := by
    have h := transmitLoop_drv a length data preT
      (I2C_start { drv := { d with mode := 0 }, i := 0, reads := 0, log := [] })
    unfold I2C_transmit at ht
    rw [ht] at h
    exact congrArg Driver.mode h
  have hmu : u.drv.mode = 1 := by
    have h := requestLoop_mode env a length preR (requestEntry env length d)
    unfold I2C_request at hu
    rw [hu] at h
    exact h
  refine ⟨?_, ?_, addressByte_xor a ha⟩
  · simp only [transmitStep, hx, if_true, conclr, I2C_address, I2C_data, hmt,
      addressByte_write a ha, List.append_assoc, List.cons_append, List.nil_append]
  · simp only [requestStep, hx, if_true, conclr, I2C_address, I2C_data, hmu,
      addressByte_read a ha, List.append_assoc, List.cons_append, List.nil_append]

/-- Witness of C12: address `0x50` on a repeated start after the first byte. -/
theorem address_byte_direction_witness :
    transmitStep 0x50 1 [7] 0x10 (I2C_transmit 0x50 1 [7] [0x08, 0x18] Driver.init).run
        = Step.cont { (I2C_transmit 0x50 1 [7] [0x08, 0x18] Driver.init).run with
            log := (I2C_transmit 0x50 1 [7] [0x08, 0x18] Driver.init).run.log
              ++ [Op.DATw (2 * 0x50), Op.CONSET BIT2, Op.CONCLR BIT5, Op.CONCLR BIT3] } ∧
      requestStep scenarioEnv 0x50 1 0x10
          (I2C_request scenarioEnv 0x50 1 [0x08, 0x40, 0x50] Driver.init).run
        = Step.cont { (I2C_request scenarioEnv 0x50 1 [0x08, 0x40, 0x50] Driver.init).run with
            log := (I2C_request scenarioEnv 0x50 1 [0x08, 0x40, 0x50] Driver.init).run.log
              ++ [Op.DATw (2 * 0x50 + 1), Op.CONSET BIT2, Op.CONCLR BIT3] } ∧
      (2 * 0x50) ^^^ (2 * 0x50 + 1) = 1 :=
  address_byte_direction scenarioEnv 0x50 1 [7] Driver.init [0x08, 0x18] [0x08, 0x40, 0x50]
    (I2C_transmit 0x50 1 [7] [0x08, 0x18] Driver.init).run
    (I2C_request scenarioEnv 0x50 1 [0x08, 0x40, 0x50] Driver.init).run 0x10
    (by decide) (Or.inr rfl) rfl rfl

/-! ## The cursor counts the received bytes -/

theorem requestStep_available (env : Env) (address length x : Nat) (s : Run) :
    (requestStep env address length x s).run.drv.available
      = if isDataReceived x = true then (s.drv.available + 1) % 256 else s.drv.available := by
  unfold requestStep isDataReceived
  dsimp only
  split_ifs with h1 h2 h3 h4 h5 h6 h7 h8 h9 <;>
    simp only [Bool.or_eq_true, beq_iff_eq] at * <;> first | rfl | omega

theorem requestLoop_available (env : Env) (address length : Nat) :
    ∀ (statuses : List Nat) (s : Run), s.drv.available < 256 →
      (requestLoop env address length statuses s).run.drv.available
        = (s.drv.available
            + (requestDecoded env address length statuses s).countP isDataReceived) % 256 := by
  intro statuses
  induction statuses with
  | nil =>
    intro s hs
    simp only [requestLoop, requestDecoded, Outcome.run, List.countP_nil, Nat.add_zero]
    exact (Nat.mod_eq_of_lt hs).symm
  | cons x rest ih =>
    intro s hs
    have hstep := requestStep_available env address length x s
    simp only [requestLoop, requestDecoded]
    cases h1 : requestStep env address length x s with
    | ret rc s1 =>
      rw [h1] at hstep
      simp only [Outcome.run, Step.run] at hstep ⊢
      rw [hstep, List.countP_cons, List.countP_nil]
      by_cases hx : isDataReceived x = true
      · simp [hx]
      · simp only [hx, if_false, Nat.zero_add, Nat.add_zero]
        exact (Nat.mod_eq_of_lt hs).symm
    | cont s1 =>
      rw [h1] at hstep
      simp only [Step.run] at hstep
      have hs1 : s1.drv.available < 256 := by
        rw [hstep]
        split_ifs
        · exact Nat.mod_lt _ (by decide)
        · exact hs
      simp only []
      rw [ih s1 hs1, hstep, List.countP_cons]
      by_cases hx : isDataReceived x = true
      · simp only [hx, if_true]
        omega
      · simp [hx]

/-- On any decoded status sequence and from any earlier state, the cursor
of `I2C_request` is the number of data-received statuses (`0x50` or `0x58`)
the call has processed, reduced modulo 256: it is a `uint8_t` incremented once
for each of them. -/
theorem request_available_counts (env : Env) (address length : Nat) (statuses : List Nat)
    (d : Driver) :
    I2C_available (I2C_request env address length statuses d).run.drv
      = (requestDecoded env address length statuses
          (requestEntry env length d)).countP isDataReceived % 256 := by
  have h := requestLoop_available env address length statuses (requestEntry env length d)
    (by simp [requestEntry, I2C_start])
  unfold I2C_available I2C_request
  rw [h]
  simp [requestEntry, I2C_start]

set_option maxRecDepth 100000 in
/-- C13: `I2C_request(0x50, 255)` on the decoded statuses `0x08`, `0x40`, `0x50`
repeated 255 times, `0x58` (what the controller reports for the driver's ACK
and NACK writes) returns `0x00` after processing 256 data-received statuses,
the last of them stored at `buffer[255]`, past the end of the 255-byte block,
and `I2C_available()` is `0`, not `256`. -/
theorem request_cursor_wraps :
    (I2C_request scenarioEnv 0x50 255
        (0x08 :: 0x40 :: (List.replicate 255 0x50 ++ [0x58])) Driver.init).code = some 0x00 ∧
      (requestDecoded scenarioEnv 0x50 255
        (0x08 :: 0x40 :: (List.replicate 255 0x50 ++ [0x58]))
        (requestEntry scenarioEnv 255 Driver.init)).countP isDataReceived = 256 ∧
      I2C_available (I2C_request scenarioEnv 0x50 255
        (0x08 :: 0x40 :: (List.replicate 255 0x50 ++ [0x58])) Driver.init).run.drv = 0 ∧
      (I2C_request scenarioEnv 0x50 255
        (0x08 :: 0x40 :: (List.replicate 255 0x50 ++ [0x58])) Driver.init).run.drv.buffer.map
          List.length = some 255 ∧
      (I2C_request scenarioEnv 0x50 255
        (0x08 :: 0x40 :: (List.replicate 255 0x50 ++ [0x58])) Driver.init).run.drv.past
          = [(255, 0)] := by
  refine ⟨by rfl, by rfl, by rfl, by rfl, by rfl⟩

/-! ## The transmit transaction and the receive buffer -/

/-- C14: for every driver state, address, length, data and decoded statuses,
`I2C_transmit` leaves `available` and `buffer` as they were, so
`I2C_available()` and `I2C_read(i)` for every `i` return the same values after
it as before; `I2C_request` is what replaces them, with cursor `0` and a
fresh block. -/
theorem transmit_keeps_buffer (env : Env) (address length : Nat) (data statuses : List Nat)
    (d : Driver) :
    (I2C_transmit address length data statuses d).run.drv.available = d.available ∧
      (I2C_transmit address length data statuses d).run.drv.buffer = d.buffer ∧
      (I2C_transmit address length data statuses d).run.drv.past = d.past ∧
      I2C_available (I2C_transmit address length data statuses d).run.drv
        = I2C_available d ∧
      (∀ i, I2C_read (I2C_transmit address length data statuses d).run.drv i
        = I2C_read d i) ∧
      (requestEntry env length d).drv.available = 0 ∧
      (requestEntry env length d).drv.buffer = some (malloc env length) := by
  have h : (I2C_transmit address length data statuses d).run.drv = { d with mode := 0 } :=
    transmitLoop_drv address length data statuses _
  refine ⟨by rw [h], by rw [h], by rw [h], by rw [h]; rfl, ?_, rfl, rfl⟩
  intro i
  rw [h]
  rfl

/-! ## A data byte is not acknowledged -/

theorem transmitLoop_acks_then (address L : Nat) (data : List Nat) (hL : L ≤ 255)
    (hd : data.length = L) (rest : List Nat) :
    ∀ (acks : List Nat), (∀ x ∈ acks, x = 0x18 ∨ x = 0x28) →
      ∀ s : Run, s.i + acks.length ≤ L →
        ∃ t mid, transmitLoop address L data (acks ++ rest) s
            = transmitLoop address L data rest t ∧
          t.log = s.log ++ mid ∧
          datWrites mid = ((data.drop s.i).take acks.length).map (· % 256) ∧
          NoStop mid ∧ t.i = s.i + acks.length ∧ t.drv = s.drv := by
  intro acks
  induction acks with
  | nil =>
    intro _ s _
    exact ⟨s, [], rfl, by simp, by simp [datWrites], by intro op hop; simp at hop, rfl, rfl⟩
  | cons x more ih =>
    intro hx s hlen
    have hx0 : x = 0x18 ∨ x = 0x28 := hx x (List.mem_cons_self x more)
    have hne : ¬ (x = 0x08 ∨ x = 0x10) := by
      rcases hx0 with h | h <;> subst h <;> decide
    simp only [List.length_cons] at hlen
    have hlt : s.i < L := by omega
    have hmod : (s.i + 1) % 256 = s.i + 1 := Nat.mod_eq_of_lt (by omega)
    have hdl : s.i < data.length := by omega
    obtain ⟨t, mid, hrun, hlog, hdat, hstop, hti, hdrv⟩ :=
      ih (fun y hy => hx y (List.mem_cons_of_mem x hy))
        (conclr BIT3 (I2C_data (data.getD s.i 0 % 256)
          { s with i := (s.i + 1) % 256, log := s.log ++ [Op.dataRd s.i] }))
        (by simp only [conclr, I2C_data]; omega)
    simp only [conclr, I2C_data, hmod] at hdat hti
    refine ⟨t, [Op.dataRd s.i, Op.DATw (data.getD s.i 0 % 256), Op.CONSET BIT2,
      Op.CONCLR BIT3] ++ mid, ?_, ?_, ?_, ?_, ?_, ?_⟩
    · simp only [List.cons_append, transmitLoop, transmitStep, hne, hx0, hlt, if_true,
        if_false]
      exact hrun
    · rw [hlog]
      simp [conclr, I2C_data]
    · rw [List.drop_eq_getElem_cons hdl, List.length_cons, List.take_succ_cons, List.map_cons,
        ← hdat, List.getD_eq_getElem data 0 hdl]
      simp [datWrites, Op.datByte]
    · refine noStop_append _ _ ?_ hstop
      simp [NoStop, Op.isStop, BIT2, BIT3, BIT4]
      rfl
    · rw [hti, List.length_cons]
      omega
    · rw [hdrv]
      rfl

/-- C15: for every length `L ≤ 255`, every `k < L` and every array `data` of
`L` bytes, `I2C_transmit` fed `0x08`, `0x18`, then `0x28` repeated `k` times,
then `0x30` requests STOP and returns `0x00`; before the STOP request the
bytes written to the data register are the address byte followed by
`data[0], ..., data[k]` only.  The call fed the all-acknowledged sequence
returns the same `0x00`. -/
theorem transmit_data_nacked (address L k : Nat) (data : List Nat) (d : Driver)
    (hL : L ≤ 255) (hk : k < L) (hd : data.length = L) (hbyte : ∀ x ∈ data, x < 256) :
    ∃ s pre, I2C_transmit address L data
          (0x08 :: 0x18 :: (List.replicate k 0x28 ++ [0x30])) d
        = Outcome.returned 0x00 s ∧
      s.log = pre ++ [Op.CONSET (BIT4 ||| BIT2), Op.CONCLR BIT3] ∧
      datWrites pre = (2 * address % 256) :: data.take (k + 1) ∧
      NoStop pre ∧
      (I2C_transmit address L data (0x08 :: 0x18 :: List.replicate L 0x28) d).code
        = some 0x00 := by
  have hacks : ∀ n, ∀ x ∈ 0x18 :: List.replicate n 0x28, x = 0x18 ∨ x = 0x28 := by
    intro n x hx
    rcases List.mem_cons.mp hx with h | h
    · exact Or.inl h
    · exact Or.inr (List.eq_of_mem_replicate h)
  obtain ⟨t, mid, hrun, hlog, hdat, hstop, _, _⟩ :=
    transmitLoop_acks_then address L data hL hd [0x30] (0x18 :: List.replicate k 0x28)
      (hacks k)
      (conclr BIT3 (conclr BIT5 (I2C_address address (transmitEntry d))))
      (by simp [conclr, I2C_address, I2C_data, transmitEntry, I2C_start]; omega)
  obtain ⟨t2, _, hrun2, _⟩ :=
    transmitLoop_acks address L data hL hd (0x18 :: List.replicate L 0x28) (hacks L)
      (conclr BIT3 (conclr BIT5 (I2C_address address (transmitEntry d))))
      (Nat.zero_le L) (by simp [conclr, I2C_address, I2C_data, transmitEntry, I2C_start])
  refine ⟨I2C_stop t, [Op.CONSET BIT5, Op.DATw (2 * address % 256), Op.CONSET BIT2,
    Op.CONCLR BIT5, Op.CONCLR BIT3] ++ mid, ?_, ?_, ?_, ?_, ?_⟩
  · have hloop : transmitLoop address L data [0x30] t = Outcome.returned 0x00 (I2C_stop t) := by
      simp [transmitLoop, transmitStep]
    rw [← hloop, ← hrun]
    simp [I2C_transmit, transmitEntry, transmitLoop, transmitStep]
  · simp only [I2C_stop, hlog]
    simp [conclr, I2C_address, I2C_data, transmitEntry, I2C_start, Nat.shiftLeft_eq,
      Nat.mul_comm]
  · have hmap : (data.take (k + 1)).map (· % 256) = data.take (k + 1) := by
      conv_rhs => rw [← List.map_id (data.take (k + 1))]
      exact List.map_congr_left
        (fun x hx => Nat.mod_eq_of_lt (hbyte x (List.mem_of_mem_take hx)))
    have hmid : datWrites mid = data.take (k + 1) := by
      rw [hdat]
      simpa [conclr, I2C_address, I2C_data, transmitEntry, I2C_start] using hmap
    simp only [datWrites] at hmid ⊢
    rw [List.filterMap_append, hmid]
    rfl
  · refine noStop_append _ _ ?_ hstop
    simp [NoStop, Op.isStop, BIT2, BIT3, BIT4, BIT5]
    refine ⟨rfl, rfl⟩
  · have : I2C_transmit address L data (0x08 :: 0x18 :: List.replicate L 0x28) d
        = Outcome.returned 0x00 t2 := by
      rw [← hrun2]
      simp [I2C_transmit, transmitEntry, transmitLoop, transmitStep]
    rw [this]
    rfl

/-- Witness of C15: three bytes to send, the second one is not acknowledged. -/
theorem transmit_data_nacked_witness :
    ∃ s pre, I2C_transmit 0x50 3 [7, 9, 11] (0x08 :: 0x18 :: (List.replicate 1 0x28 ++ [0x30]))
          Driver.init
        = Outcome.returned 0x00 s ∧
      s.log = pre ++ [Op.CONSET (BIT4 ||| BIT2), Op.CONCLR BIT3] ∧
      datWrites pre = (2 * 0x50 % 256) :: [7, 9, 11].take (1 + 1) ∧
      NoStop pre ∧
      (I2C_transmit 0x50 3 [7, 9, 11] (0x08 :: 0x18 :: List.replicate 3 0x28) Driver.init).code
        = some 0x00 :=
  transmit_data_nacked 0x50 3 1 [7, 9, 11] Driver.init (by decide) (by decide) rfl (by decide)

/-! ## Reads of the transmit array -/

theorem dataReads_append (l m : List Op) : dataReads (l ++ m) = dataReads l ++ dataReads m := by
  simp [dataReads]

theorem transmitStep_dataReads (address length : Nat) (data : List Nat) (hL : length ≤ 255)
    (x : Nat) (s : Run) (hi : s.i ≤ length) (hr : dataReads s.log = List.range s.i) :
    (transmitStep address length data x s).run.i ≤ length ∧
      dataReads (transmitStep address length data x s).run.log
        = List.range (transmitStep address length data x s).run.i := by
  unfold transmitStep
  dsimp only
  split_ifs with h1 h2 h3 h4 h5 h6
  · refine ⟨hi, ?_⟩
    simp only [Step.run, conclr, I2C_address, I2C_data, List.append_assoc, dataReads_append, hr]
    simp [dataReads, Op.dataIdx]
  · have hmod : (s.i + 1) % 256 = s.i + 1 := Nat.mod_eq_of_lt (by omega)
    refine ⟨by simp only [Step.run, conclr, I2C_data, hmod]; omega, ?_⟩
    simp only [Step.run, conclr, I2C_data, List.append_assoc, dataReads_append, hr, hmod,
      List.range_succ]
    simp [dataReads, Op.dataIdx]
  · refine ⟨hi, ?_⟩
    simp only [Step.run, I2C_stop, dataReads_append, hr]
    simp [dataReads, Op.dataIdx]
  · refine ⟨hi, ?_⟩
    simp only [Step.run, I2C_stop, dataReads_append, hr]
    simp [dataReads, Op.dataIdx]
  · exact ⟨hi, hr⟩
  · refine ⟨hi, ?_⟩
    simp only [Step.run, I2C_stop, dataReads_append, hr]
    simp [dataReads, Op.dataIdx]
  · refine ⟨hi, ?_⟩
    simp only [Step.run, conclr, dataReads_append, hr]
    simp [dataReads, Op.dataIdx]

theorem transmitLoop_dataReads (address length : Nat) (data : List Nat) (hL : length ≤ 255) :
    ∀ (statuses : List Nat) (s : Run), s.i ≤ length → dataReads s.log = List.range s.i →
      (transmitLoop address length data statuses s).run.i ≤ length ∧
        dataReads (transmitLoop address length data statuses s).run.log
          = List.range (transmitLoop address length data statuses s).run.i := by
  intro statuses
  induction statuses with
  | nil =>
    intro s hi hr
    exact ⟨hi, hr⟩
  | cons x rest ih =>
    intro s hi hr
    have hstep := transmitStep_dataReads address length data hL x s hi hr
    simp only [transmitLoop]
    cases h1 : transmitStep address length data x s with
    | ret rc s1 =>
      rw [h1] at hstep
      exact hstep
    | cont s1 =>
      rw [h1] at hstep
      exact ih s1 hstep.1 hstep.2

theorem interleave_snoc_left (a : Nat) (xs ys zs : List Nat) (h : Interleave xs ys zs) :
    Interleave (xs ++ [a]) ys (zs ++ [a]) := by
  induction h with
  | nil => exact Interleave.left a Interleave.nil
  | left b _ ih => exact Interleave.left b ih
  | right b _ ih => exact Interleave.right b ih

theorem interleave_snoc_right (b : Nat) (xs ys zs : List Nat) (h : Interleave xs ys zs) :
    Interleave xs (ys ++ [b]) (zs ++ [b]) := by
  induction h with
  | nil => exact Interleave.right b Interleave.nil
  | left a _ ih => exact Interleave.left a ih
  | right a _ ih => exact Interleave.right a ih

theorem interleave_length (xs ys zs : List Nat) (h : Interleave xs ys zs) :
    zs.length = xs.length + ys.length := by
  induction h with
  | nil => rfl
  | left a _ ih => simp only [List.length_cons, ih]; omega
  | right a _ ih => simp only [List.length_cons, ih]; omega

theorem datWrites_append (l m : List Op) : datWrites (l ++ m) = datWrites l ++ datWrites m := by
  simp [datWrites]

theorem transmitStep_no_send (address length : Nat) (data : List Nat) (x : Nat) (s : Run)
    (h0 : ¬ (x = 0x08 ∨ x = 0x10)) (h1 : ¬ ((x = 0x18 ∨ x = 0x28) ∧ s.i < length)) :
    (transmitStep address length data x s).run.i = s.i ∧
      datWrites (transmitStep address length data x s).run.log = datWrites s.log := by
  unfold transmitStep
  dsimp only
  split_ifs
  all_goals first
    | (exfalso; exact h1 ⟨by assumption, by assumption⟩)
    | exact ⟨rfl, by simp [Step.run, I2C_stop, conclr, datWrites, Op.datByte]⟩

/-- One pass of the transmit loop keeps the bytes written to the data register
a merge of the address bytes, one per START status, and of `data[0..i)`. -/
theorem transmitStep_sends (address length : Nat) (data : List Nat) (x n : Nat) (s : Run)
    (hm : s.drv.mode = 0)
    (hw : Interleave (List.replicate n (2 * address % 256))
      ((List.range s.i).map (fun j => data.getD j 0 % 256)) (datWrites s.log))
    (hL : length ≤ 255) :
    Interleave (List.replicate (n + if isStart x = true then 1 else 0) (2 * address % 256))
      ((List.range (transmitStep address length data x s).run.i).map
        (fun j => data.getD j 0 % 256))
      (datWrites (transmitStep address length data x s).run.log) := by
  by_cases h0 : x = 0x08 ∨ x = 0x10
  · have hs : isStart x = true := by
      simp only [isStart, Bool.or_eq_true, beq_iff_eq]
      exact h0
    have hstep : transmitStep address length data x s
        = Step.cont (conclr BIT3 (conclr BIT5 (I2C_address address s))) := by
      simp only [transmitStep, h0, if_true]
    have hlog : datWrites (conclr BIT3 (conclr BIT5 (I2C_address address s))).log
        = datWrites s.log ++ [2 * address % 256] := by
      simp only [conclr, I2C_address, I2C_data, hm, List.append_assoc, datWrites_append]
      simp [datWrites, Op.datByte, Nat.shiftLeft_eq, Nat.mul_comm]
    rw [hstep, hs]
    simp only [if_true, Step.run]
    rw [hlog, List.replicate_succ']
    exact interleave_snoc_left _ _ _ _ hw
  · have hs : isStart x = false := by
      simp only [isStart, Bool.or_eq_false_iff, beq_eq_false_iff_ne, ne_eq]
      exact not_or.mp h0
    rw [hs]
    simp only [Bool.false_eq_true, if_false, Nat.add_zero]
    by_cases h1 : (x = 0x18 ∨ x = 0x28) ∧ s.i < length
    · have hmod : (s.i + 1) % 256 = s.i + 1 := Nat.mod_eq_of_lt (by omega)
      have hstep : transmitStep address length data x s
          = Step.cont (conclr BIT3 (I2C_data (data.getD s.i 0 % 256)
              { s with i := (s.i + 1) % 256, log := s.log ++ [Op.dataRd s.i] })) := by
        simp only [transmitStep, h0, h1.1, h1.2, if_true, if_false]
      have hlog : datWrites (conclr BIT3 (I2C_data (data.getD s.i 0 % 256)
          { s with i := (s.i + 1) % 256, log := s.log ++ [Op.dataRd s.i] })).log
          = datWrites s.log ++ [data.getD s.i 0 % 256] := by
        simp only [conclr, I2C_data, List.append_assoc, datWrites_append]
        simp [datWrites, Op.datByte]
      have hidx : (conclr BIT3 (I2C_data (data.getD s.i 0 % 256)
          { s with i := (s.i + 1) % 256, log := s.log ++ [Op.dataRd s.i] })).i = s.i + 1 :=
        hmod
      rw [hstep]
      simp only [Step.run]
      rw [hlog, hidx, List.range_succ, List.map_append, List.map_singleton]
      exact interleave_snoc_right _ _ _ _ hw
    · obtain ⟨hidx, hlog⟩ := transmitStep_no_send address length data x s h0 h1
      rw [hidx, hlog]
      exact hw

theorem transmitLoop_sends (address length : Nat) (data : List Nat) (hL : length ≤ 255) :
    ∀ (statuses : List Nat) (n : Nat) (s : Run), s.drv.mode = 0 → s.i ≤ length →
      dataReads s.log = List.range s.i →
      Interleave (List.replicate n (2 * address % 256))
        ((List.range s.i).map (fun j => data.getD j 0 % 256)) (datWrites s.log) →
      Interleave
        (List.replicate (n + (transmitDecoded address length data statuses s).countP isStart)
          (2 * address % 256))
        ((List.range (transmitLoop address length data statuses s).run.i).map
          (fun j => data.getD j 0 % 256))
        (datWrites (transmitLoop address length data statuses s).run.log) := by
  intro statuses
  induction statuses with
  | nil =>
    intro n s _ _ _ hw
    exact hw
  | cons x rest ih =>
    intro n s hm hi hr hw
    have hstep := transmitStep_sends address length data x n s hm hw hL
    have hreads := transmitStep_dataReads address length data hL x s hi hr
    have hdrv := transmitStep_drv address length data x s
    simp only [transmitLoop, transmitDecoded]
    cases h1 : transmitStep address length data x s with
    | ret rc s1 =>
      rw [h1] at hstep
      simp only [List.countP_cons, List.countP_nil, Nat.zero_add]
      exact hstep
    | cont s1 =>
      rw [h1] at hstep hreads hdrv
      simp only [Step.run] at hstep hreads hdrv
      have hm1 : s1.drv.mode = 0 := by rw [hdrv]; exact hm
      have := ih (n + if isStart x = true then 1 else 0) s1 hm1 hreads.1 hreads.2 hstep
      simp only [List.countP_cons]
      have hn : n + ((transmitDecoded address length data rest s1).countP isStart
          + if isStart x = true then 1 else 0)
          = n + (if isStart x = true then 1 else 0)
            + (transmitDecoded address length data rest s1).countP isStart := by omega
      rw [hn]
      exact this

/-- C17: for every address, length (a `uint8_t`, so at most 255), data array,
earlier state and decoded status sequence, there is `k ≤ length` such that the
indices of `data[]` that `I2C_transmit` reads are `0, 1, ..., k-1` in this
order (no index at or beyond `length`, none twice, none out of order), and the
bytes it writes to the data register are a merge of the address byte, written
once per START or repeated-START status decoded, and of `data[0], ...,
data[k-1]`, each written once and in this order. -/
theorem transmit_reads_in_order (address length : Nat) (data statuses : List Nat) (d : Driver)
    (hL : length ≤ 255) :
    ∃ k, k ≤ length ∧
      dataReads (I2C_transmit address length data statuses d).run.log = List.range k ∧
      Interleave
        (List.replicate
          ((transmitDecoded address length data statuses (transmitEntry d)).countP isStart)
          (2 * address % 256))
        ((List.range k).map (fun j => data.getD j 0 % 256))
        (datWrites (I2C_transmit address length data statuses d).run.log) := by
  have h := transmitLoop_dataReads address length data hL statuses (transmitEntry d)
    (Nat.zero_le length) (by simp [transmitEntry, I2C_start, dataReads, Op.dataIdx])
  have hw := transmitLoop_sends address length data hL statuses 0 (transmitEntry d) rfl
    (Nat.zero_le length) (by simp [transmitEntry, I2C_start, dataReads, Op.dataIdx])
    (by
      simp only [transmitEntry, I2C_start, List.nil_append, List.replicate_zero, List.range_zero,
        List.map_nil]
      exact Interleave.nil)
  rw [Nat.zero_add] at hw
  exact ⟨_, h.1, h.2, hw⟩

/-- Witness of C17: a repeated start and an unrecognised status interleaved in
a transmission of two bytes. -/
theorem transmit_reads_in_order_witness :
    ∃ k, k ≤ 2 ∧
      dataReads (I2C_transmit 0x50 2 [7, 9] [0x08, 0x18, 0x10, 0x60, 0x28, 0x28, 0x28]
        Driver.init).run.log = List.range k ∧
      Interleave
        (List.replicate
          ((transmitDecoded 0x50 2 [7, 9] [0x08, 0x18, 0x10, 0x60, 0x28, 0x28, 0x28]
            (transmitEntry Driver.init)).countP isStart)
          (2 * 0x50 % 256))
        ((List.range k).map (fun j => [7, 9].getD j 0 % 256))
        (datWrites (I2C_transmit 0x50 2 [7, 9] [0x08, 0x18, 0x10, 0x60, 0x28, 0x28, 0x28]
          Driver.init).run.log) :=
  transmit_reads_in_order 0x50 2 [7, 9] [0x08, 0x18, 0x10, 0x60, 0x28, 0x28, 0x28] Driver.init
    (by decide)

/-! ## Termination of the transmit loop -/

theorem transmitStep_cont (address L : Nat) (data : List Nat) (hL : L ≤ 255) (x : Nat)
    (s t : Run) (hi : s.i ≤ L) (h : transmitStep address L data x s = Step.cont t) :
    isTransmitFinal x = false ∧ t.i = s.i + (if isAcked x = true then 1 else 0) ∧ t.i ≤ L := by
  unfold transmitStep at h
  dsimp only at h
  unfold isTransmitFinal isAcked
  split_ifs at h with h1 h2 h3 h4 h5 h6 <;> simp only [Step.cont.injEq] at h <;> subst h
  · rcases h1 with h | h <;> subst h <;> exact ⟨rfl, rfl, hi⟩
  · have hmod : (s.i + 1) % 256 = s.i + 1 := Nat.mod_eq_of_lt (by omega)
    rcases h2 with h | h <;> subst h <;>
      exact ⟨rfl, by simp only [conclr, I2C_data, hmod]; rfl,
        by simp only [conclr, I2C_data, hmod]; omega⟩
  · refine ⟨?_, ?_, hi⟩
    · simp only [Bool.or_eq_false_iff, beq_eq_false_iff_ne, ne_eq]
      omega
    · have : ((x == 0x18 || x == 0x28) = true) = False := by
        simp only [Bool.or_eq_true, beq_iff_eq, eq_iff_iff, iff_false]
        exact h2
      simp only [this, if_false, conclr, Nat.add_zero]

theorem transmitStep_final (address L : Nat) (data : List Nat) (x : Nat) (s : Run)
    (hx : isTransmitFinal x = true) :
    ∃ rc t, transmitStep address L data x s = Step.ret rc t := by
  unfold isTransmitFinal at hx
  simp only [Bool.or_eq_true, beq_iff_eq] at hx
  unfold transmitStep
  dsimp only
  split_ifs with h1 h2 h3 h4 h5 h6
  all_goals first
    | exact ⟨_, _, rfl⟩
    | (exfalso; omega)

theorem transmitLoop_blocked (address L : Nat) (data : List Nat) (hL : L ≤ 255) :
    ∀ (statuses : List Nat) (s t : Run), s.i ≤ L →
      transmitLoop address L data statuses s = Outcome.blocked t →
      s.i + statuses.countP isAcked ≤ L ∧ ∀ x ∈ statuses, isTransmitFinal x = false := by
  intro statuses
  induction statuses with
  | nil =>
    intro s t hi _
    exact ⟨by simpa using hi, by intro x hx; simp at hx⟩
  | cons x rest ih =>
    intro s t hi h
    simp only [transmitLoop] at h
    cases h1 : transmitStep address L data x s with
    | ret rc s1 => simp [h1] at h
    | cont s1 =>
      simp only [h1] at h
      obtain ⟨hfin, hsi, hle⟩ := transmitStep_cont address L data hL x s s1 hi h1
      obtain ⟨hcount, hrest⟩ := ih s1 t hle h
      refine ⟨?_, ?_⟩
      · rw [List.countP_cons]
        omega
      · intro y hy
        rcases List.mem_cons.mp hy with hyx | hyr
        · rw [hyx]
          exact hfin
        · exact hrest y hyr

theorem transmitDecoded_acked (address L : Nat) (data : List Nat) (hL : L ≤ 255) :
    ∀ (statuses : List Nat) (s : Run), s.i ≤ L →
      s.i + (transmitDecoded address L data statuses s).countP isAcked ≤ L + 1 := by
  intro statuses
  induction statuses with
  | nil =>
    intro s hi
    simp only [transmitDecoded, List.countP_nil]
    omega
  | cons x rest ih =>
    intro s hi
    simp only [transmitDecoded]
    cases h1 : transmitStep address L data x s with
    | ret rc s1 =>
      simp only [List.countP_cons, List.countP_nil]
      split_ifs <;> omega
    | cont s1 =>
      obtain ⟨_, hsi, hle⟩ := transmitStep_cont address L data hL x s s1 hi h1
      have := ih s1 hle
      simp only [List.countP_cons]
      omega

/-- C18: for every length `L` (a `uint8_t`, so at most 255) and every decoded
status sequence, `I2C_transmit(address, L, data)` decodes at most `L + 1`
statuses `0x18`/`0x28`, whatever is interleaved; and on a sequence that holds
at least `L + 1` of them, or any of `0x20`, `0x30`, `0x38`, `0x00`, it
returns. -/
theorem transmit_terminates (address L : Nat) (data statuses : List Nat) (d : Driver)
    (hL : L ≤ 255) :
    (transmitDecoded address L data statuses (transmitEntry d)).countP isAcked ≤ L + 1 ∧
      ((L + 1 ≤ statuses.countP isAcked ∨ ∃ x ∈ statuses, isTransmitFinal x = true) →
        ∃ rc t, I2C_transmit address L data statuses d = Outcome.returned rc t) := by
  refine ⟨?_, ?_⟩
  · have h := transmitDecoded_acked address L data hL statuses (transmitEntry d)
      (Nat.zero_le L)
    have h0 : (transmitEntry d).i = 0 := rfl
    omega
  · intro h
    cases hrun : I2C_transmit address L data statuses d with
    | returned rc t => exact ⟨rc, t, rfl⟩
    | blocked t =>
      exfalso
      obtain ⟨hcount, hfin⟩ := transmitLoop_blocked address L data hL statuses
        (transmitEntry d) t (Nat.zero_le L) hrun
      have h0 : (transmitEntry d).i = 0 := rfl
      rcases h with h | ⟨x, hx, hxf⟩
      · omega
      · rw [hfin x hx] at hxf
        exact Bool.false_ne_true hxf

/-- Witness of C18: two bytes to send, three acknowledged statuses among a
repeated start and an unrecognised status. -/
theorem transmit_terminates_witness :
    (transmitDecoded 0x50 2 [7, 9] [0x08, 0x18, 0x10, 0x60, 0x28, 0x28, 0x28]
        (transmitEntry Driver.init)).countP isAcked ≤ 2 + 1 ∧
      ∃ rc t, I2C_transmit 0x50 2 [7, 9] [0x08, 0x18, 0x10, 0x60, 0x28, 0x28, 0x28]
        Driver.init = Outcome.returned rc t :=
  ⟨(transmit_terminates 0x50 2 [7, 9] [0x08, 0x18, 0x10, 0x60, 0x28, 0x28, 0x28]
      Driver.init (by decide)).1,
    (transmit_terminates 0x50 2 [7, 9] [0x08, 0x18, 0x10, 0x60, 0x28, 0x28, 0x28]
      Driver.init (by decide)).2 (Or.inl (by decide))⟩

/-! ## Statuses outside the handled set -/

/-- C19: on a decoded status that is none of `0x08, 0x10, 0x18, 0x28, 0x20,
0x30, 0x38, 0x00`, a pass of the loop of `I2C_transmit` does not return and
only appends the write `CONCLR = BIT3` (clear SI) to the log; the same holds
for `I2C_request` on a status that is none of `0x08, 0x10, 0x38, 0x40, 0x48,
0x50, 0x58, 0x00`.  The index `i`, the cursor and the buffer are unchanged. -/
theorem unhandled_status_skipped (env : Env) (address length : Nat) (data : List Nat)
    (x y : Nat) (s : Run)
    (hx : x ∉ [0x08, 0x10, 0x18, 0x28, 0x20, 0x30, 0x38, 0x00])
    (hy : y ∉ [0x08, 0x10, 0x38, 0x40, 0x48, 0x50, 0x58, 0x00]) :
    transmitStep address length data x s
        = Step.cont { s with log := s.log ++ [Op.CONCLR BIT3] } ∧
      requestStep env address length y s
        = Step.cont { s with log := s.log ++ [Op.CONCLR BIT3] } ∧
      (Op.CONCLR BIT3).isRegWrite = true := by
  simp only [List.mem_cons, List.mem_singleton, List.not_mem_nil, or_false, not_or] at hx hy
  refine ⟨?_, ?_, rfl⟩
  · simp [transmitStep, hx, conclr]
  · simp [requestStep, hy, conclr]

/-- Witness of C19: the status `0x60` in both loops. -/
theorem unhandled_status_skipped_witness :
    transmitStep 0x50 1 [7] 0x60 (transmitEntry Driver.init)
        = Step.cont { transmitEntry Driver.init with
            log := (transmitEntry Driver.init).log ++ [Op.CONCLR BIT3] } ∧
      requestStep scenarioEnv 0x50 1 0x60 (transmitEntry Driver.init)
        = Step.cont { transmitEntry Driver.init with
            log := (transmitEntry Driver.init).log ++ [Op.CONCLR BIT3] } ∧
      (Op.CONCLR BIT3).isRegWrite = true :=
  unhandled_status_skipped scenarioEnv 0x50 1 [7] 0x60 0x60 (transmitEntry Driver.init)
    (by decide) (by decide)

/-! ## Status decoder -/

theorem mask_lt (v : Nat) : v &&& 0xF8 < 256 :=
  Nat.lt_of_le_of_lt Nat.and_le_right (by decide)

theorem mask_low_bits (v : Nat) : (v &&& 0xF8) % 8 = 0 := by
  have h := Nat.and_pow_two_sub_one_eq_mod (v &&& 0xF8) 3
  have h7 : (2 : Nat) ^ 3 - 1 = 7 := by decide
  have h8 : (2 : Nat) ^ 3 = 8 := by decide
  rw [h7, h8, Nat.and_assoc] at h
  rw [← h]
  have : (0xF8 : Nat) &&& 7 = 0 := by decide
  rw [this, Nat.and_zero]

theorem I2C_wait_set (cpre crest : List Nat) (c : Nat) (hcpre : ∀ x ∈ cpre, x &&& BIT3 = 0)
    (hc : c &&& BIT3 ≠ 0) : I2C_wait (cpre ++ c :: crest) = some crest := by
  induction cpre with
  | nil => simp [I2C_wait, hc]
  | cons y ys ih =>
    have hy : y &&& BIT3 = 0 := hcpre y (List.mem_cons_self y ys)
    simp only [List.cons_append, I2C_wait, hy, ne_eq, not_true_eq_false, if_false]
    exact ih (fun x hx => hcpre x (List.mem_cons_of_mem y hx))

theorem I2C_wait_clear (cpre : List Nat) (hcpre : ∀ x ∈ cpre, x &&& BIT3 = 0) :
    I2C_wait cpre = none := by
  induction cpre with
  | nil => rfl
  | cons y ys ih =>
    have hy : y &&& BIT3 = 0 := hcpre y (List.mem_cons_self y ys)
    simp only [I2C_wait, hy, ne_eq, not_true_eq_false, if_false]
    exact ih (fun x hx => hcpre x (List.mem_cons_of_mem y hx))

theorem I2C_status_skip (pre rest conset : List Nat) (hpre : ∀ x ∈ pre, x &&& 0xF8 = 0xF8) :
    I2C_status (pre ++ rest) conset = I2C_status rest conset := by
  induction pre with
  | nil => rfl
  | cons y ys ih =>
    have hy : y &&& 0xF8 = 0xF8 := hpre y (List.mem_cons_self y ys)
    simp only [List.cons_append, I2C_status, hy, Nat.reduceMod, if_true]
    exact ih (fun x hx => hpre x (List.mem_cons_of_mem y hx))

/-- C16: given reads of the status register of which `v` is the first with
`(v & 0xF8) != 0xF8`, and reads of `CONSET` of which `c` is the first with the
SI bit set, `I2C_status` returns `v & 0xF8`, having skipped every earlier read
and consumed nothing after `v` and `c`; the result is not `0xF8` and its low
three bits are clear; and as long as SI has only been read clear the call does
not return. -/
theorem status_decoder (pre rest cpre crest : List Nat) (v c : Nat)
    (hpre : ∀ x ∈ pre, x &&& 0xF8 = 0xF8) (hv : v &&& 0xF8 ≠ 0xF8)
    (hcpre : ∀ x ∈ cpre, x &&& BIT3 = 0) (hc : c &&& BIT3 ≠ 0) :
    I2C_status (pre ++ v :: rest) (cpre ++ c :: crest) = some (v &&& 0xF8, rest, crest) ∧
      v &&& 0xF8 ≠ 0xF8 ∧ (v &&& 0xF8) % 8 = 0 ∧
      I2C_status (pre ++ v :: rest) cpre = none := by
  have hmod : (v &&& 0xF8) % 256 = v &&& 0xF8 := Nat.mod_eq_of_lt (mask_lt v)
  refine ⟨?_, hv, mask_low_bits v, ?_⟩
  · rw [I2C_status_skip pre (v :: rest) _ hpre]
    simp only [I2C_status, hmod, hv, if_false, I2C_wait_set cpre crest c hcpre hc]
  · rw [I2C_status_skip pre (v :: rest) _ hpre]
    simp only [I2C_status, hmod, hv, if_false, I2C_wait_clear cpre hcpre]

/-- Witness of C16: two reads of `0xF8`/`0xFF`, then `0x2B`; SI read clear
twice, then set. -/
theorem status_decoder_witness :
    I2C_status ([0xF8, 0xFF] ++ 0x2B :: [0x30]) ([0x40, 0x44] ++ 0x4C :: [0x40])
        = some (0x2B &&& 0xF8, [0x30], [0x40]) ∧
      0x2B &&& 0xF8 ≠ 0xF8 ∧ (0x2B &&& 0xF8) % 8 = 0 ∧
      I2C_status ([0xF8, 0xFF] ++ 0x2B :: [0x30]) [0x40, 0x44] = none :=
  status_decoder [0xF8, 0xFF] [0x30] [0x40, 0x44] [0x40] 0x2B 0x4C
    (by decide) (by decide) (by decide) (by decide)

end I2C
